import Mathlib

/-!
  Verification of the message-rpc repository (a TypeScript RPC substrate):
  a shallow embedding of its framed byte buffers, typed-value codec, RPC
  message frames, event emitter, and channel multiplexer, together with
  proofs and refutations of the stated properties.

  Modelling conventions:
  * JavaScript numbers are modelled as `Int` where the code performs 32-bit
    coercions (`x & y`, `x >> y`, `DataView.setUint32`, `DataView.getInt32`,
    `Uint8Array` element stores), with the coercions made explicit as
    `js32` / `toSigned32` / `jsByte` (floating point behaviour is out of
    scope; all arithmetic the claims touch is integral and exact).
  * Byte stores into a `Uint8Array` keep the low 8 bits (`ToUint8`).
  * `Map` objects are modelled by their key lists in insertion order
    (`Map.set` appends a missing key, `Map.delete` erases it).
-/

/-! ## JavaScript numeric coercions -/

/-- ToUint32: the 32-bit pattern of a JavaScript number (here an `Int`). -/
def js32 (x : Int) : Nat := (x % (2 ^ 32 : Int)).toNat

/-- Signed reading of a 32-bit pattern, as produced by `ToInt32` or
`DataView.getInt32`: values at or above `2 ^ 31` wrap to negatives. -/
def toSigned32 (u : Nat) : Int := ((u : Int) + 2 ^ 31) % 2 ^ 32 - 2 ^ 31

/-- ToInt32: signed 32-bit coercion of a JavaScript number. -/
def jsToInt32 (x : Int) : Int := toSigned32 (js32 x)

/-- ToUint8: the byte stored by an assignment into a `Uint8Array`. -/
def jsByte (x : Int) : Nat := js32 x % 256

/-- JavaScript `x & 127` for a number `x`: low 7 bits of the 32-bit pattern. -/
def jsAnd127 (x : Int) : Nat := js32 x % 128

/-- JavaScript `x >> 7` (signed shift): arithmetic shift of the `ToInt32`
value, i.e. floor division by 128 (Euclidean division by a positive divisor
coincides with floor division). -/
def jsShr7 (x : Int) : Int := jsToInt32 x / 128

/-- JavaScript `x << s` for a non-negative integral `x`: the shift count is
taken mod 32 and the result is read back as a signed 32-bit value. -/
def jsShl (x : Nat) (s : Nat) : Int := toSigned32 (x * 2 ^ (s % 32))

/-! ## Write buffer: `ArrrayBufferWriteBuffer` (array-buffer-message-buffer.ts)

The buffer is a byte region of a given capacity plus a write offset.
`committed` records, in order, the byte blobs published by `commit()`
(each `commit` fires the `onCommit` emitter once with the current contents). -/

structure AWB where
  buffer : List Nat
  offset : Nat
  committed : List (List Nat)
deriving Repr, DecidableEq

/-- Constructor state: `new ArrrayBufferWriteBuffer(new Uint8Array(c), 0)`.
The default capacity in the source is `1024 * 1024`. -/
def AWB.init (c : Nat) : AWB := ⟨List.replicate c 0, 0, []⟩

/-- getCurrentContents: `this.buffer.slice(0, this.offset)`. -/
def AWB.contents (w : AWB) : List Nat := w.buffer.take w.offset

/-- The capacity-doubling loop of `ensureCapacity`:
`while (newLength < needed) newLength *= 2`. A zero capacity would loop
forever in the source; the model returns 0 there (unreachable: the
constructor capacity is positive). -/
def growCap (len needed : Nat) : Nat :=
  if len < needed then (if len = 0 then 0 else growCap (2 * len) needed) else len
termination_by needed - len
decreasing_by omega

/-- ensureCapacity: grow to the doubled length and copy; the new cells of the
reallocated `Uint8Array` are zero. -/
def AWB.ensureCapacity (value : Nat) (w : AWB) : AWB :=
  let newLength := growCap w.buffer.length (w.offset + value)
  if newLength = w.buffer.length then w
  else { w with buffer := w.buffer ++ List.replicate (newLength - w.buffer.length) 0 }

/-- writeByte: `this.buffer[this.offset++] = value` after `ensureCapacity(1)`. -/
def AWB.writeByte (value : Int) (w : AWB) : AWB :=
  let w1 := w.ensureCapacity 1
  { w1 with buffer := w1.buffer.set w1.offset (jsByte value), offset := w1.offset + 1 }

/-- writeInt: `setUint32(offset, value)` big-endian, then `offset += 4`. -/
def AWB.writeInt (value : Int) (w : AWB) : AWB :=
  let w1 := w.ensureCapacity 4
  let u := js32 value
  { w1 with
    buffer := ((((w1.buffer.set w1.offset (u / 2 ^ 24 % 256)).set
        (w1.offset + 1) (u / 2 ^ 16 % 256)).set
        (w1.offset + 2) (u / 2 ^ 8 % 256)).set
        (w1.offset + 3) (u % 256)),
    offset := w1.offset + 4 }

/-- writeLength: the varint writer.  Note the boundary `length < 127` in the
source (127 itself takes the continuation branch), and that `&` and `>>`
coerce through 32 bits while the comparison uses the uncoerced number. -/
def AWB.writeLength (length : Int) (w : AWB) : AWB :=
  if length < 127 then w.writeByte length
  else AWB.writeLength (jsShr7 length) (w.writeByte (128 + (jsAnd127 length : Int)))
termination_by length.toNat
decreasing_by
  unfold jsShr7 jsToInt32 toSigned32 js32
  omega

/-- writeBytes: varint byte length, then the raw octets copied verbatim at the
offset. -/
def AWB.writeBytes (value : List Nat) (w : AWB) : AWB :=
  let w1 := AWB.writeLength (value.length : Int) w
  let w2 := w1.ensureCapacity value.length
  { w2 with
    buffer := w2.buffer.take w2.offset ++ value
      ++ w2.buffer.drop (w2.offset + value.length),
    offset := w2.offset + value.length }

/-- commit: fire the `onCommit` emitter with `getCurrentContents()`.  The
source sets no flag: the buffer state is otherwise unchanged. -/
def AWB.commit (w : AWB) : AWB :=
  { w with committed := w.committed ++ [w.contents] }

/-! ## Read buffer: `ArrayBufferReadBuffer` -/

structure ARB where
  buffer : List Nat
  offset : Nat
deriving Repr, DecidableEq

/-- readByte: `getUint8(offset++)`; reading past the end is a fatal
`RangeError`, modelled as `none`. -/
def ARB.readByte (s : ARB) : Option (Nat × ARB) :=
  match s.buffer.get? s.offset with
  | some b => some (b, { s with offset := s.offset + 1 })
  | none => none

/-- The `while (byte > 127)` loop of readLength, carrying the last byte read,
the shift, and the accumulated value. -/
def ARB.readLengthLoop (b : Nat) (s : ARB) (shift : Nat) (value : Int) :
    Option (Int × ARB) :=
  if b > 127 then
    match hr : ARB.readByte s with
    | some (b2, s2) =>
        ARB.readLengthLoop b2 s2 (shift + 7) (value + jsShl (b2 % 128) (shift + 7))
    | none => none
  else some (value, s)
termination_by s.buffer.length - s.offset
decreasing_by
  unfold ARB.readByte at hr
  split at hr
  · rename_i b3 hget
    cases hr
    rcases List.get?_eq_some.mp hget with ⟨hlt, _⟩
    simp
    omega
  · cases hr

/-- readLength: read the first byte, then run the continuation loop. -/
def ARB.readLength (s : ARB) : Option (Int × ARB) :=
  match ARB.readByte s with
  | some (b, s1) => ARB.readLengthLoop b s1 0 (jsShl (b % 128) 0)
  | none => none

/-- readInt: `getInt32(offset)` big-endian signed, then `offset += 4`. -/
def ARB.readInt (s : ARB) : Option (Int × ARB) :=
  match s.buffer.get? s.offset, s.buffer.get? (s.offset + 1),
      s.buffer.get? (s.offset + 2), s.buffer.get? (s.offset + 3) with
  | some b0, some b1, some b2, some b3 =>
      some (toSigned32 (b0 * 2 ^ 24 + b1 * 2 ^ 16 + b2 * 2 ^ 8 + b3),
        { s with offset := s.offset + 4 })
  | _, _, _, _ => none

/-! ## Pure byte sequences emitted by the writers

These mirror `writeLength` and `writeInt` as plain byte-list producers; the
bridge lemmas below prove they are exactly what the buffer methods append. -/

/-- The byte sequence emitted by `writeLength` for a given argument. -/
def wlBytes (length : Int) : List Nat :=
  if length < 127 then [jsByte length]
  else (128 + jsAnd127 length) :: wlBytes (jsShr7 length)
termination_by length.toNat
decreasing_by
  unfold jsShr7 jsToInt32 toSigned32 js32
  omega

/-- The 4 big-endian bytes emitted by `writeInt`. -/
def wiBytes (value : Int) : List Nat :=
  [js32 value / 2 ^ 24 % 256, js32 value / 2 ^ 16 % 256,
   js32 value / 2 ^ 8 % 256, js32 value % 256]

/-! ## Write scripts

A sequence of primitive writes against one buffer, used to state what a
`commit` publishes after an arbitrary interaction. `writeNumber` (IEEE-754
doubles) and `writeString` (UTF-8) are outside the modelled byte level. -/

inductive WOp where
  | wbyte (v : Int)
  | wint (v : Int)
  | wlength (v : Int)
  | wbytes (bs : List Nat)
deriving Repr, DecidableEq

def applyWOp (w : AWB) : WOp → AWB
  | .wbyte v => w.writeByte v
  | .wint v => w.writeInt v
  | .wlength v => AWB.writeLength v w
  | .wbytes bs => w.writeBytes bs

def runWOps (ops : List WOp) (w : AWB) : AWB := ops.foldl applyWOp w

/-- The byte sequence a write op appends to the contents. -/
def wopBytes : WOp → List Nat
  | .wbyte v => [jsByte v]
  | .wint v => wiBytes v
  | .wlength v => wlBytes v
  | .wbytes bs => wlBytes (bs.length : Int) ++ bs

def wopsBytes (ops : List WOp) : List Nat := (ops.map wopBytes).flatten

/-! ## Runtime values reaching the typed-value codec (message-encoder.ts)

`RValue` models the JavaScript values the codec can receive: the JSON
scalars, `undefined`, functions, raw byte arrays (`ArrayBuffer`), arrays and
plain objects.  Object fields are listed in `Object.keys` enumeration order;
keys of a JavaScript object are distinct.  Numbers are modelled as integers
(floating point is out of scope). -/

inductive RValue where
  | null
  | undef
  | func
  | bool (b : Bool)
  | num (n : Int)
  | str (s : String)
  | bytes (bs : List Nat)
  | arr (es : List RValue)
  | obj (fs : List (String × RValue))
deriving Repr

/-- The items written through the `WriteBuffer` interface by the codec layer.
The codec is programmed against the buffer interface, so it is modelled over
a token stream realizing the contract that reads mirror writes; `int` carries
the 32-bit pattern stored by `setUint32` and is read back signed by
`getInt32`, `byte` carries the low 8 bits. -/
inductive WireItem where
  | byte (b : Nat)
  | int (u : Nat)
  | str (s : String)
  | blob (bs : List Nat)
deriving Repr, DecidableEq

/-- writeByte at the interface level. -/
def wByteN (v : Nat) : WireItem := .byte (v % 256)

/-- writeInt of a JavaScript number: the stored pattern is ToUint32. -/
def wInt (x : Int) : WireItem := .int (js32 x)

/-- writeInt of a non-negative count or tag. -/
def wIntN (n : Nat) : WireItem := .int (n % 2 ^ 32)

/-- readByte against the item stream. -/
def readByteI : List WireItem → Except String (Nat × List WireItem)
  | .byte b :: rest => .ok (b, rest)
  | _ => .error "framing error: expected byte"

/-- readInt: the signed reading of the stored 32-bit pattern (`getInt32`). -/
def readIntI : List WireItem → Except String (Int × List WireItem)
  | .int u :: rest => .ok (toSigned32 u, rest)
  | _ => .error "framing error: expected int"

/-- readString. -/
def readStrI : List WireItem → Except String (String × List WireItem)
  | .str s :: rest => .ok (s, rest)
  | _ => .error "framing error: expected string"

/-- readBytes. -/
def readBlobI : List WireItem → Except String (List Nat × List WireItem)
  | .blob bs :: rest => .ok (bs, rest)
  | _ => .error "framing error: expected bytes"

/-! ## JSON scalar texts

Modelled from the platform: `JSON.stringify` and `JSON.parse` restricted to
the texts this codec actually produces at tag 0.  The JSON fallback encoder
is consulted last, after the `ArrayBuffer`, array, undefined and object
encoders, so it only ever receives booleans, numbers, strings and functions;
`JSON.stringify` of a function is `undefined`, which `writeString` coerces to
the text `undefined`.  Control characters inside strings are kept literal
rather than escaped; this differs from `JSON.stringify` only in the
intermediate text, not in the decoded value. -/

def isDigitCh (c : Char) : Bool := 48 ≤ c.toNat && c.toNat ≤ 57

def digitsVal (cs : List Char) : Nat := cs.foldl (fun a c => 10 * a + (c.toNat - 48)) 0

/-- The decimal digits of a natural number, most significant first. -/
def natDigits (n : Nat) : List Char :=
  if n < 10 then [Char.ofNat (48 + n)]
  else natDigits (n / 10) ++ [Char.ofNat (48 + n % 10)]
termination_by n
decreasing_by omega

/-- The decimal text of an integer. -/
def intText (n : Int) : List Char :=
  if n < 0 then '-' :: natDigits (-n).toNat else natDigits n.toNat

/-- JSON string escaping of one character (quote and backslash). -/
def escCh (c : Char) : List Char :=
  if c = '"' || c = '\\' then ['\\', c] else [c]

def escStr (cs : List Char) : List Char := (cs.map escCh).flatten

/-- Scan a JSON string body: unescape until the closing quote, returning the
content and what follows the quote. -/
def scanStrBody : List Char → Option (List Char × List Char)
  | [] => none
  | '\\' :: c :: rest =>
      match scanStrBody rest with
      | some (cs, r) => some (c :: cs, r)
      | none => none
  | '"' :: rest => some ([], rest)
  | c :: rest =>
      match scanStrBody rest with
      | some (cs, r) => some (c :: cs, r)
      | none => none

/-- JSON.stringify on the values the JSON fallback encoder can receive.
The final catch-all covers values that are dispatched to other encoders
before the JSON fallback and is never reached from `writeTVF`. -/
def jsonScalarStr : RValue → List Char
  | .bool true => ['t', 'r', 'u', 'e']
  | .bool false => ['f', 'a', 'l', 's', 'e']
  | .null => ['n', 'u', 'l', 'l']
  | .num n => intText n
  | .str s => '"' :: (escStr s.data ++ ['"'])
  | _ => ['u', 'n', 'd', 'e', 'f', 'i', 'n', 'e', 'd']

/-- JSON.parse on scalar texts (the only texts this codec emits at tag 0);
non-scalar or malformed texts are parse errors. -/
def jsonParse (s : String) : Except String RValue :=
  match s.data with
  | ['t', 'r', 'u', 'e'] => .ok (.bool true)
  | ['f', 'a', 'l', 's', 'e'] => .ok (.bool false)
  | ['n', 'u', 'l', 'l'] => .ok .null
  | '"' :: rest =>
      match scanStrBody rest with
      | some (cs, []) => .ok (.str (String.mk cs))
      | _ => .error "SyntaxError: bad JSON string"
  | '-' :: rest =>
      if rest ≠ [] ∧ rest.all isDigitCh then .ok (.num (-(digitsVal rest : Int)))
      else .error "SyntaxError: bad JSON number"
  | cs =>
      if cs ≠ [] ∧ cs.all isDigitCh then .ok (.num (digitsVal cs : Int))
      else .error "SyntaxError: unsupported JSON text"

/-! ## The typed-value encoder and decoder

`writeTypedValue` scans the encoder list in reverse registration order:
ByteArray (`value instanceof ArrayBuffer`), ObjectArray (`Array.isArray`),
Undefined (`typeof value === 'undefined'`), Object (`typeof value ===
'object'` — which is also true of `null`, making `Object.keys(null)` throw),
then the JSON fallback.  The recursion is driven by an explicit fuel
(`0` is never reached from the wrappers, whose fuel is sufficient); this
keeps every function structurally recursive. -/

def isFuncV : RValue → Bool
  | .func => true
  | _ => false

mutual

/-- writeTypedValue: reverse-registration-order encoder dispatch as listed
above.  The object case writes the count of non-function fields and then the
surviving `(key, value)` pairs; the field loop here skips function-valued
fields in place, which emits exactly the filtered pair list of the source.
The ByteArray case models the writeBytes bug: the encoder hands the raw
`ArrayBuffer` to `writeBytes`, whose `buffer.set(value, offset)` treats an
`ArrayBuffer` as a length-0 array-like and copies NOTHING (and
`ensureCapacity(value.length)` compares against NaN, a no-op), while
`writeLength(value.byteLength)` and `offset += value.byteLength` are
computed from the real size — so the frame carries the correct byte count
followed by the skipped, never-written region of the zero-initialized frame
buffer: zeros, not the payload. -/
def writeTypedValue : RValue → Except String (List WireItem)
  | .bytes bs => .ok [wIntN 1, .blob (List.replicate bs.length 0)]
  | .arr es =>
      match writeValues es with
      | .ok body => .ok (wIntN 2 :: wIntN es.length :: body)
      | .error e => .error e
  | .undef => .ok [wIntN 3]
  | .null => .error "TypeError: Object.keys called on null"
  | .obj fs =>
      match writeFields fs with
      | .ok body =>
          .ok (wIntN 4 :: wIntN (fs.filter (fun kv => !(isFuncV kv.2))).length :: body)
      | .error e => .error e
  | .func => .ok [wIntN 0, .str (String.mk (jsonScalarStr .func))]
  | v => .ok [wIntN 0, .str (String.mk (jsonScalarStr v))]

/-- The element loop of writeArray. -/
def writeValues : List RValue → Except String (List WireItem)
  | [] => .ok []
  | e :: es =>
      match writeTypedValue e with
      | .ok h =>
          match writeValues es with
          | .ok t => .ok (h ++ t)
          | .error e2 => .error e2
      | .error e2 => .error e2

/-- The pair loop of the Object encoder (function-valued fields skipped). -/
def writeFields : List (String × RValue) → Except String (List WireItem)
  | [] => .ok []
  | (k, v) :: fs =>
      if isFuncV v then writeFields fs
      else
        match writeTypedValue v with
        | .ok h =>
            match writeFields fs with
            | .ok t => .ok (.str k :: (h ++ t))
            | .error e2 => .error e2
        | .error e2 => .error e2

end

/-- writeArray: `writeInt(value.length)` then each element. -/
def writeArrayW (args : List RValue) : Except String (List WireItem) :=
  match writeValues args with
  | .ok body => .ok (wIntN args.length :: body)
  | .error e => .error e

mutual

def readTVF : Nat → List WireItem → Except String (RValue × List WireItem)
  | 0, _ => .error "fuel exhausted"
  | fuel + 1, items =>
    match readIntI items with
    | .error e => .error e
    | .ok (tag, rest) =>
      if tag = 0 then
        match readStrI rest with
        | .ok (s, r2) =>
            match jsonParse s with
            | .ok v => .ok (v, r2)
            | .error e => .error e
        | .error e => .error e
      else if tag = 1 then
        match readBlobI rest with
        | .ok (bs, r2) => .ok (.bytes bs, r2)
        | .error e => .error e
      else if tag = 2 then
        match readIntI rest with
        | .ok (len, r2) =>
            if len < 0 then .error "RangeError: invalid array length"
            else
              match readValuesF fuel len.toNat r2 with
              | .ok (es, r3) => .ok (.arr es, r3)
              | .error e => .error e
        | .error e => .error e
      else if tag = 3 then .ok (.undef, rest)
      else if tag = 4 then
        match readIntI rest with
        | .ok (count, r2) =>
            match readFieldsF fuel count.toNat r2 with
            | .ok (fs, r3) => .ok (.obj fs, r3)
            | .error e => .error e
        | .error e => .error e
      else .error "No decoder for tag"

def readValuesF : Nat → Nat → List WireItem → Except String (List RValue × List WireItem)
  | 0, _, _ => .error "fuel exhausted"
  | _ + 1, 0, items => .ok ([], items)
  | fuel + 1, c + 1, items =>
      match readTVF fuel items with
      | .ok (v, r) =>
          match readValuesF fuel c r with
          | .ok (vs, r2) => .ok (v :: vs, r2)
          | .error e => .error e
      | .error e => .error e

def readFieldsF : Nat → Nat → List WireItem → Except String (List (String × RValue) × List WireItem)
  | 0, _, _ => .error "fuel exhausted"
  | _ + 1, 0, items => .ok ([], items)
  | fuel + 1, c + 1, items =>
      match readStrI items with
      | .ok (k, r) =>
          match readTVF fuel r with
          | .ok (v, r2) =>
              match readFieldsF fuel c r2 with
              | .ok (fs, r3) => .ok ((k, v) :: fs, r3)
              | .error e => .error e
          | .error e => .error e
      | .error e => .error e

end

/-- readTypedValue: the wrapper supplies sufficient fuel (each recursion
step consumes at least one item). -/
def readTypedValue (items : List WireItem) : Except String (RValue × List WireItem) :=
  readTVF (items.length + 1) items

/-- readArray: `readInt` length, `new Array(length)` (RangeError when
negative), then one typed value per slot. -/
def readArrayD (items : List WireItem) : Except String (List RValue × List WireItem) :=
  match readIntI items with
  | .ok (len, r) =>
      if len < 0 then .error "RangeError: invalid array length"
      else readValuesF (items.length + 1) len.toNat r
  | .error e => .error e

/-! ## Encodability predicates

`transportable v` sets out the domain on which the typed-value round trip can
hold: no `null` anywhere (the Object encoder claims `null` and
`Object.keys(null)` throws), no functions (dropped from objects, garbled as
top-level values), no byte arrays (the ByteArray encoder garbles them, see
the encoder model below), and counts below `2 ^ 31` so the signed `getInt32`
reading matches.  `jsonSafe` further restricts to the JSON-expressible values
of the round-trip law. -/

mutual

def transportable : RValue → Bool
  | .null => false
  | .func => false
  | .undef => true
  | .bool _ => true
  | .num _ => true
  | .str _ => true
  | .bytes _ => false
  | .arr es => decide (es.length < 2 ^ 31) && transportableList es
  | .obj fs => decide (fs.length < 2 ^ 31) && transportableFields fs

def transportableList : List RValue → Bool
  | [] => true
  | e :: es => transportable e && transportableList es

def transportableFields : List (String × RValue) → Bool
  | [] => true
  | (_, v) :: fs => !(isFuncV v) && transportable v && transportableFields fs

end

mutual

def jsonSafe : RValue → Bool
  | .bool _ => true
  | .num _ => true
  | .str _ => true
  | .arr es => decide (es.length < 2 ^ 31) && jsonSafeList es
  | .obj fs => decide (fs.length < 2 ^ 31) && jsonSafeFields fs
  | _ => false

def jsonSafeList : List RValue → Bool
  | [] => true
  | e :: es => jsonSafe e && jsonSafeList es

def jsonSafeFields : List (String × RValue) → Bool
  | [] => true
  | (_, v) :: fs => jsonSafe v && jsonSafeFields fs

end

/-! ## The reference encoding

`encTV v` is the item sequence `writeTypedValue` produces on encodable
values; the lemmas below prove the agreement, so theorems can speak about a
concrete byte-level image.  The `.bytes` case mirrors the writeBytes bug of
the encoder model: correct length, zero content. -/

mutual

def encTV : RValue → List WireItem
  | .bytes bs => [wIntN 1, .blob (List.replicate bs.length 0)]
  | .arr es => wIntN 2 :: wIntN es.length :: encTVList es
  | .undef => [wIntN 3]
  | .obj fs =>
      wIntN 4 :: wIntN (fs.filter (fun kv => !(isFuncV kv.2))).length :: encTVFields fs
  | v => [wIntN 0, .str (String.mk (jsonScalarStr v))]

def encTVList : List RValue → List WireItem
  | [] => []
  | e :: es => encTV e ++ encTVList es

def encTVFields : List (String × RValue) → List WireItem
  | [] => []
  | (k, v) :: fs =>
      if isFuncV v then encTVFields fs
      else .str k :: (encTV v ++ encTVFields fs)

end

/-! ## RPC message frames (message-encoder.ts)

The tagged union of the five message variants, the frame writers of
`MessageEncoder`, and the parser of `MessageDecoder`. -/

inductive RPCMessage where
  | request (id : Int) (method : String) (args : List RValue)
  | notification (id : Int) (method : String) (args : List RValue)
  | reply (id : Int) (res : RValue)
  | replyErr (id : Int) (err : RValue)
  | cancel (id : Int)
deriving Repr

/-- MessageEncoder.cancel. -/
def encCancel (id : Int) : Except String (List WireItem) :=
  .ok [wByteN 5, wInt id]

/-- MessageEncoder.request. -/
def encRequest (id : Int) (method : String) (args : List RValue) :
    Except String (List WireItem) :=
  match writeArrayW args with
  | .ok body => .ok (wByteN 1 :: wInt id :: .str method :: body)
  | .error e => .error e

/-- MessageEncoder.notification. -/
def encNotification (id : Int) (method : String) (args : List RValue) :
    Except String (List WireItem) :=
  match writeArrayW args with
  | .ok body => .ok (wByteN 2 :: wInt id :: .str method :: body)
  | .error e => .error e

/-- MessageEncoder.replyOK. -/
def encReplyOK (id : Int) (res : RValue) : Except String (List WireItem) :=
  match writeTypedValue res with
  | .ok body => .ok (wByteN 3 :: wInt id :: body)
  | .error e => .error e

/-- MessageEncoder.replyErr. -/
def encReplyErr (id : Int) (err : RValue) : Except String (List WireItem) :=
  match writeTypedValue err with
  | .ok body => .ok (wByteN 4 :: wInt id :: body)
  | .error e => .error e

/-- The frame API as one dispatcher over the message union. -/
def encodeMessage : RPCMessage → Except String (List WireItem)
  | .request id method args => encRequest id method args
  | .notification id method args => encNotification id method args
  | .reply id res => encReplyOK id res
  | .replyErr id err => encReplyErr id err
  | .cancel id => encCancel id

/-- JavaScript truthiness of a value (`err && err.$isError`). -/
def jsTruthy : RValue → Bool
  | .null => false
  | .undef => false
  | .bool b => b
  | .num n => decide (n ≠ 0)
  | .str s => decide (s ≠ "")
  | _ => true

/-- Property access `v[k]`: the field when `v` is an object carrying it,
otherwise `undefined`. -/
def getProp (v : RValue) (k : String) : RValue :=
  match v with
  | .obj fs =>
      match fs.find? (fun kv => kv.1 = k) with
      | some kv => kv.2
      | none => .undef
  | _ =>
      RValue.undef

/-- The observable own fields of `new Error()` per the ECMAScript spec:
`name` is "Error" and `message` is the empty string after the no-op
self-assignments of `parseReplyErr` (the implementation-defined `stack` is
omitted from the model). -/
def newErrorV : RValue :=
  .obj [("name", .str "Error"), ("message", .str "")]

/-- MessageDecoder.parseCancel. -/
def parseCancelD (items : List WireItem) : Except String (RPCMessage × List WireItem) :=
  match readIntI items with
  | .ok (callId, r) => .ok (.cancel callId, r)
  | .error e => .error e

/-- The `null` normalization applied to parsed argument arrays:
`args.map(arg => arg === null ? undefined : arg)`. -/
def nullToUndef (args : List RValue) : List RValue :=
  args.map fun a =>
    match a with
    | .null => .undef
    | a => a

/-- MessageDecoder.parseRequest. -/
def parseRequestD (items : List WireItem) : Except String (RPCMessage × List WireItem) :=
  match readIntI items with
  | .ok (callId, r1) =>
      match readStrI r1 with
      | .ok (method, r2) =>
          match readArrayD r2 with
          | .ok (args, r3) => .ok (.request callId method (nullToUndef args), r3)
          | .error e => .error e
      | .error e => .error e
  | .error e => .error e

/-- MessageDecoder.parseNotification. -/
def parseNotificationD (items : List WireItem) : Except String (RPCMessage × List WireItem) :=
  match readIntI items with
  | .ok (callId, r1) =>
      match readStrI r1 with
      | .ok (method, r2) =>
          match readArrayD r2 with
          | .ok (args, r3) => .ok (.notification callId method (nullToUndef args), r3)
          | .error e => .error e
      | .error e => .error e
  | .error e => .error e

/-- MessageDecoder.parseReply. -/
def parseReplyD (items : List WireItem) : Except String (RPCMessage × List WireItem) :=
  match readIntI items with
  | .ok (callId, r1) =>
      match readTypedValue r1 with
      | .ok (v, r2) => .ok (.reply callId v, r2)
      | .error e => .error e
  | .error e => .error e

/-- MessageDecoder.parseReplyErr.  When the decoded value is truthy and
carries a truthy `$isError` field, the source overwrites `err` with
`new Error()` BEFORE copying, so the subsequent `err.name = err.name`,
`err.message = err.message`, `err.stack = err.stack` are self-assignments
and the decoded fields are lost. -/
def parseReplyErrD (items : List WireItem) : Except String (RPCMessage × List WireItem) :=
  match readIntI items with
  | .ok (callId, r1) =>
      match readTypedValue r1 with
      | .ok (v, r2) =>
          let err := if jsTruthy v && jsTruthy (getProp v "$isError") then newErrorV else v
          .ok (.replyErr callId err, r2)
      | .error e => .error e
  | .error e => .error e

/-- MessageDecoder.parse: dispatch on the leading message-type byte. -/
def parseMessage (items : List WireItem) : Except String (RPCMessage × List WireItem) :=
  match readByteI items with
  | .ok (msgType, r) =>
      if msgType = 1 then parseRequestD r
      else if msgType = 2 then parseNotificationD r
      else if msgType = 3 then parseReplyD r
      else if msgType = 4 then parseReplyErrD r
      else if msgType = 5 then parseCancelD r
      else .error "Unknown message type"
  | .error e => .error e

/-- The marker check of parseReplyErr (`err && err.$isError`). -/
def hasErrorMarker (v : RValue) : Bool := jsTruthy v && jsTruthy (getProp v "$isError")

/-- The image of the frame API on each message variant (proved below to be
what the frame writers emit). -/
def encMsg : RPCMessage → List WireItem
  | .request id method args =>
      wByteN 1 :: wInt id :: .str method :: wIntN args.length :: encTVList args
  | .notification id method args =>
      wByteN 2 :: wInt id :: .str method :: wIntN args.length :: encTVList args
  | .reply id res => wByteN 3 :: wInt id :: encTV res
  | .replyErr id err => wByteN 4 :: wInt id :: encTV err
  | .cancel id => [wByteN 5, wInt id]

/-- The domain of the message round trip: the call id survives the
unsigned-write/signed-read pair, the payload values are encodable and
decodable to themselves, and a ReplyError payload does not carry the error
marker (which the parser replaces with a fresh Error). -/
def wfMessage : RPCMessage → Bool
  | .request id _ args =>
      decide (0 ≤ id) && decide (id < 2 ^ 31)
        && decide (args.length < 2 ^ 31) && transportableList args
  | .notification id _ args =>
      decide (0 ≤ id) && decide (id < 2 ^ 31)
        && decide (args.length < 2 ^ 31) && transportableList args
  | .reply id res => decide (0 ≤ id) && decide (id < 2 ^ 31) && transportable res
  | .replyErr id err =>
      decide (0 ≤ id) && decide (id < 2 ^ 31) && transportable err
        && !(hasErrorMarker err)
  | .cancel id => decide (0 ≤ id) && decide (id < 2 ^ 31)

/-- The well-formedness invariant of a write buffer: the offset is within the
capacity and the capacity is positive (as the constructor guarantees). -/
def AWBInv (w : AWB) : Prop := w.offset ≤ w.buffer.length ∧ 0 < w.buffer.length

/-- One buffer state extends another by the byte sequence `bs`: the contents
grew by exactly `bs`, nothing was committed, and the invariant holds. -/
def AWBExt (w w2 : AWB) (bs : List Nat) : Prop :=
  w2.contents = w.contents ++ bs ∧ w2.offset = w.offset + bs.length
    ∧ w2.committed = w.committed ∧ AWBInv w2

/-! ## Event emitter (event.ts)

`Emitter` keeps a listener array.  Registration pushes the listener and
captures `position = this.listeners.length` AFTER the push; the returned
disposable calls `splice(position, 1)`.  `fire` invokes the listeners in
array order, so the invocation order is the listener list itself. -/

structure Emitter (α : Type) where
  listeners : List α
deriving Repr, DecidableEq

/-- Registering a listener: push it, and return the captured `position`
(the array length after the push). -/
def Emitter.subscribe (e : Emitter α) (l : α) : Emitter α × Nat :=
  ({ listeners := e.listeners ++ [l] }, e.listeners.length + 1)

/-- The `dispose` of the returned disposable: `listeners.splice(position, 1)`
removes the element at index `position` when one exists, otherwise nothing. -/
def Emitter.disposeAt (e : Emitter α) (position : Nat) : Emitter α :=
  { listeners := e.listeners.take position ++ e.listeners.drop (position + 1) }

/-- fire: the listeners invoked, in order. -/
def Emitter.fireList (e : Emitter α) : List α := e.listeners

/-- Register a whole list of listeners in order, collecting the positions
captured by each registration. -/
def Emitter.subscribeAll (e : Emitter α) : List α → Emitter α × List Nat
  | [] => (e, [])
  | l :: ls =>
      let (e1, p) := e.subscribe l
      let (e2, ps) := e1.subscribeAll ls
      (e2, p :: ps)

/-! ## Channel multiplexer (channel.ts)

State of a `ChannelMultiplexer`: the key lists of the `pendingOpen` and
`openChannels` maps, a per-id count of `onCloseEmitter.fire()` calls on the
channel currently (or last) registered under that id, and the log of control
frames written to the underlying channel (opcode, id).  Opcodes follow
`MessageTypes`: 1 = Open, 2 = Close, 3 = AckOpen, 4 = Data. -/

structure MuxState where
  pendingOpen : List String
  openChannels : List String
  closedFired : String → Nat
  sent : List (Nat × String)

/-- The state after construction: both maps empty, no signals fired. -/
def MuxState.initial : MuxState := ⟨[], [], fun _ => 0, []⟩

/-- `Map.set` on the modelled key list: append the key if absent. -/
def mapSetKey (l : List String) (id : String) : List String :=
  if id ∈ l then l else l ++ [id]

/-- Bump a per-id counter. -/
def bumpCount (f : String → Nat) (id : String) : String → Nat :=
  fun x => if x = id then f x + 1 else f x

/-- Events driving the multiplexer: a local `open(id)` call, the four inbound
frame kinds dispatched by `handleMessage`, and the underlying channel closing
(`handleClose`).  `handleError` only fans out to error emitters and touches no
modelled state. -/
inductive MuxEvent where
  | localOpen (id : String)
  | inOpen (id : String)
  | inAckOpen (id : String)
  | inClose (id : String)
  | inData (id : String)
  | transportClose
deriving Repr, DecidableEq

/-- closeChannel: write a Close frame, fire the closed signal of the channel
registered under `id`, delete it from `openChannels`. -/
def MuxState.closeChannel (s : MuxState) (id : String) : MuxState :=
  { s with
    sent := s.sent ++ [(2, id)],
    closedFired := bumpCount s.closedFired id,
    openChannels := s.openChannels.erase id }

/-- One step of the multiplexer.  The `Bool` is true when the handler throws:
the only throw is `resolve!(channel)` in the AckOpen case when no resolver is
pending, and it happens after the state mutations of that case.

Faithful quirks carried over from the source:
* the AckOpen case inserts the new channel into `openChannels` and deletes
  the `pendingOpen` entry before invoking the (possibly absent) resolver;
* the Open case, when the id is new, calls a pending resolver for the same id
  but does NOT delete it from `pendingOpen`;
* the Open case, when the id is already open, does nothing at all;
* `handleClose` clears `pendingOpen`, then calls `channel.close()` (which is
  `closeChannel`) for every open channel, then clears `openChannels`. -/
def muxStep (s : MuxState) : MuxEvent → MuxState × Bool
  | .localOpen id =>
      ({ s with
          sent := s.sent ++ [(1, id)],
          pendingOpen := mapSetKey s.pendingOpen id }, false)
  | .inAckOpen id =>
      ({ s with
          pendingOpen := s.pendingOpen.erase id,
          openChannels := mapSetKey s.openChannels id },
        decide (id ∉ s.pendingOpen))
  | .inOpen id =>
      if id ∈ s.openChannels then (s, false)
      else
        ({ s with openChannels := s.openChannels ++ [id] }, false)
  | .inClose id =>
      if id ∈ s.openChannels then
        ({ s with
            closedFired := bumpCount s.closedFired id,
            openChannels := s.openChannels.erase id }, false)
      else (s, false)
  | .inData _ => (s, false)
  | .transportClose =>
      let s1 := { s with pendingOpen := [] }
      let s2 := s.openChannels.foldl MuxState.closeChannel s1
      ({ s2 with openChannels := [] }, false)

/-- Run a sequence of events (each delivery is a separate dispatch; an
exception thrown by one dispatch does not stop later deliveries). -/
def muxRun (s : MuxState) : List MuxEvent → MuxState
  | [] => s
  | e :: es => muxRun (muxStep s e).1 es


/-! # Lemmas -/

/-! ## Numeric coercion facts -/

theorem toSigned32_of_lt {u : Nat} (h : u < 2 ^ 31) : toSigned32 u = (u : Nat) := by
  unfold toSigned32
  omega

theorem toSigned32_of_ge {u : Nat} (h1 : 2 ^ 31 ≤ u) (h2 : u < 2 ^ 32) :
    toSigned32 u = (u : Int) - 2 ^ 32 := by
  unfold toSigned32
  omega

theorem js32_natCast (n : Nat) : js32 (n : Int) = n % 2 ^ 32 := by
  unfold js32
  omega

theorem js32_of_lt {n : Nat} (h : n < 2 ^ 32) : js32 (n : Int) = n := by
  rw [js32_natCast]
  omega

theorem jsByte_small {v : Int} (h0 : 0 ≤ v) (h1 : v < 256) : jsByte v = v.toNat := by
  unfold jsByte js32
  omega

/-! ## Item-level readers on written items -/

theorem readIntI_int (u : Nat) (r : List WireItem) :
    readIntI (.int u :: r) = .ok (toSigned32 u, r) := rfl

theorem readIntI_wIntN {c : Nat} (h : c < 2 ^ 31) (r : List WireItem) :
    readIntI (wIntN c :: r) = .ok ((c : Int), r) := by
  have hc : c % 2 ^ 32 = c := Nat.mod_eq_of_lt (by omega)
  rw [wIntN, hc, readIntI_int, toSigned32_of_lt h]

theorem readIntI_wInt {id : Int} (h0 : 0 ≤ id) (h1 : id < 2 ^ 31) (r : List WireItem) :
    readIntI (wInt id :: r) = .ok (id, r) := by
  rw [wInt, readIntI_int, toSigned32_of_lt (by unfold js32; omega)]
  have hj : ((js32 id : Nat) : Int) = id := by
    unfold js32
    omega
  rw [hj]

theorem readByteI_wByteN {b : Nat} (h : b < 256) (r : List WireItem) :
    readByteI (wByteN b :: r) = .ok (b, r) := by
  rw [wByteN, Nat.mod_eq_of_lt h]
  rfl

/-! ## List surgery -/

theorem take_set_succ (l : List Nat) (i : Nat) (b : Nat) (h : i < l.length) :
    (l.set i b).take (i + 1) = l.take i ++ [b] := by
  induction l generalizing i with
  | nil => simp at h
  | cons a t ih =>
    cases i with
    | zero => simp
    | succ n =>
      simp only [List.set, List.take, List.cons_append]
      rw [ih n (by simpa using h)]

/-! ## Capacity growth -/

theorem growCap_ge (len needed : Nat) (h : 0 < len) : needed ≤ growCap len needed := by
  rw [growCap]
  split
  · rw [if_neg (by omega)]
    exact growCap_ge (2 * len) needed (by omega)
  · omega
termination_by needed - len
decreasing_by omega

theorem growCap_ge_len (len needed : Nat) (h : 0 < len) : len ≤ growCap len needed := by
  rw [growCap]
  split
  · rw [if_neg (by omega)]
    calc len ≤ 2 * len := by omega
    _ ≤ growCap (2 * len) needed := growCap_ge_len (2 * len) needed (by omega)
  · omega
termination_by needed - len
decreasing_by omega

theorem ensureCapacity_spec (w : AWB) (k : Nat) (hI : AWBInv w) :
    (w.ensureCapacity k).offset = w.offset ∧ (w.ensureCapacity k).committed = w.committed
      ∧ (w.ensureCapacity k).contents = w.contents
      ∧ w.offset + k ≤ (w.ensureCapacity k).buffer.length
      ∧ AWBInv (w.ensureCapacity k) := by
  obtain ⟨hoff, hpos⟩ := hI
  simp only [AWB.ensureCapacity]
  split
  · rename_i heq
    refine ⟨rfl, rfl, rfl, ?_, hoff, hpos⟩
    calc w.offset + k ≤ growCap w.buffer.length (w.offset + k) := growCap_ge _ _ hpos
    _ = w.buffer.length := heq
  · have hge := growCap_ge w.buffer.length (w.offset + k) hpos
    have hgl := growCap_ge_len w.buffer.length (w.offset + k) hpos
    constructor
    · rfl
    constructor
    · rfl
    constructor
    · show (w.buffer ++ _).take w.offset = w.buffer.take w.offset
      exact List.take_append_of_le_length hoff
    · simp only [AWB.contents, List.length_append, List.length_replicate, AWBInv]
      omega

/-! ## Buffer extension lemmas: each writer appends exactly its bytes -/

theorem AWBExt_trans {w w2 w3 : AWB} {b1 b2 : List Nat}
    (h1 : AWBExt w w2 b1) (h2 : AWBExt w2 w3 b2) : AWBExt w w3 (b1 ++ b2) := by
  obtain ⟨c1, o1, m1, i1⟩ := h1
  obtain ⟨c2, o2, m2, i2⟩ := h2
  refine ⟨?_, ?_, ?_, i2⟩
  · rw [c2, c1, List.append_assoc]
  · rw [o2, o1, List.length_append]
    omega
  · rw [m2, m1]

theorem writeByte_ext (w : AWB) (v : Int) (hI : AWBInv w) :
    AWBExt w (w.writeByte v) [jsByte v] := by
  obtain ⟨ho, hm, hc, hcap, hI2⟩ := ensureCapacity_spec w 1 hI
  have hlt : (w.ensureCapacity 1).offset < (w.ensureCapacity 1).buffer.length := by
    omega
  unfold AWBExt AWBInv
  simp only [AWB.writeByte, AWB.contents, List.length_set, List.length_cons,
    List.length_nil] at *
  refine ⟨?_, by omega, hm, by omega, by omega⟩
  rw [take_set_succ _ _ _ hlt]
  rw [hc]

theorem writeInt_ext (w : AWB) (v : Int) (hI : AWBInv w) :
    AWBExt w (w.writeInt v) (wiBytes v) := by
  obtain ⟨ho, hm, hc, hcap, hI2⟩ := ensureCapacity_spec w 4 hI
  unfold AWBExt AWBInv
  simp only [AWB.writeInt, AWB.contents, List.length_set, wiBytes, List.length_cons,
    List.length_nil] at *
  refine ⟨?_, by omega, hm, by omega, by omega⟩
  rw [show (w.ensureCapacity 4).offset + 4 = ((w.ensureCapacity 4).offset + 3) + 1 from by omega,
    take_set_succ _ _ _ (by simp only [List.length_set]; omega)]
  rw [show (w.ensureCapacity 4).offset + 3 = ((w.ensureCapacity 4).offset + 2) + 1 from by omega,
    take_set_succ _ _ _ (by simp only [List.length_set]; omega)]
  rw [show (w.ensureCapacity 4).offset + 2 = ((w.ensureCapacity 4).offset + 1) + 1 from by omega,
    take_set_succ _ _ _ (by simp only [List.length_set]; omega)]
  rw [take_set_succ _ _ _ (by omega)]
  rw [hc]
  simp

theorem writeLength_ext (x : Int) (w : AWB) (hI : AWBInv w) :
    AWBExt w (AWB.writeLength x w) (wlBytes x) := by
  rw [AWB.writeLength, wlBytes]
  by_cases hx : x < 127
  · rw [if_pos hx, if_pos hx]
    exact writeByte_ext w x hI
  · rw [if_neg hx, if_neg hx]
    have h1 := writeByte_ext w (128 + (jsAnd127 x : Int)) hI
    have hbv : jsByte (128 + (jsAnd127 x : Int)) = 128 + jsAnd127 x := by
      unfold jsByte js32 jsAnd127
      have : js32 x % 128 < 128 := Nat.mod_lt _ (by norm_num)
      unfold js32 at this
      omega
    rw [hbv] at h1
    have h2 := writeLength_ext (jsShr7 x) (w.writeByte (128 + (jsAnd127 x : Int))) h1.2.2.2
    have := AWBExt_trans h1 h2
    simpa using this
termination_by x.toNat
decreasing_by
  unfold jsShr7 jsToInt32 toSigned32 js32
  omega

theorem writeBytes_ext (bs : List Nat) (w : AWB) (hI : AWBInv w) :
    AWBExt w (w.writeBytes bs) (wlBytes (bs.length : Int) ++ bs) := by
  have h1 := writeLength_ext (bs.length : Int) w hI
  obtain ⟨ho, hm, hc, hcap, hI2⟩ :=
    ensureCapacity_spec (AWB.writeLength (bs.length : Int) w) bs.length h1.2.2.2
  obtain ⟨ho2, hpos2⟩ := hI2
  refine AWBExt_trans h1 ⟨?_, ?_, ?_, ?_, ?_⟩
  · simp only [AWB.writeBytes, AWB.contents] at hc ⊢
    rw [List.take_left' ?side]
    case side =>
      rw [List.length_append, List.length_take]
      omega
    rw [hc]
  · simp only [AWB.writeBytes]
    omega
  · simp only [AWB.writeBytes]
    exact hm
  · simp only [AWB.writeBytes, List.length_append, List.length_take, List.length_drop]
    omega
  · simp only [AWB.writeBytes, List.length_append, List.length_take, List.length_drop]
    omega

theorem init_inv {c : Nat} (hc : 0 < c) : AWBInv (AWB.init c) := by
  constructor <;> simp [AWB.init, hc]

theorem init_contents (c : Nat) : (AWB.init c).contents = [] := by
  simp [AWB.init, AWB.contents]

theorem applyWOp_ext (w : AWB) (op : WOp) (hI : AWBInv w) :
    AWBExt w (applyWOp w op) (wopBytes op) := by
  cases op with
  | wbyte v => exact writeByte_ext w v hI
  | wint v => exact writeInt_ext w v hI
  | wlength v => exact writeLength_ext v w hI
  | wbytes bs => exact writeBytes_ext bs w hI

theorem runWOps_ext (ops : List WOp) (w : AWB) (hI : AWBInv w) :
    AWBExt w (runWOps ops w) (wopsBytes ops) := by
  induction ops generalizing w with
  | nil => exact ⟨by simp [runWOps, wopsBytes], by simp [runWOps, wopsBytes], rfl, hI⟩
  | cons op ops ih =>
    have h1 := applyWOp_ext w op hI
    have h2 := ih (applyWOp w op) h1.2.2.2
    have h3 := AWBExt_trans h1 h2
    simpa [runWOps, wopsBytes, List.foldl] using h3

theorem commit_spec (w : AWB) :
    (w.commit).committed = w.committed ++ [w.contents]
      ∧ (w.commit).buffer = w.buffer ∧ (w.commit).offset = w.offset :=
  ⟨rfl, rfl, rfl⟩

/-- C9: corrected.  What holds: after any write script against a buffer in
any well-formed state, `commit()` publishes exactly the bytes `[0, offset)`
written so far, appending a single publication to the commit event stream.
What fails in the claim: nothing marks the buffer spent, so further writes
stay effective (see the counterexample); refraining from them is a caller
obligation stated in the WriteBuffer interface documentation. -/
theorem c9_commit_publishes (w : AWB) (ops : List WOp) (hI : AWBInv w) :
    ((runWOps ops w).commit).committed = w.committed ++ [w.contents ++ wopsBytes ops]
      ∧ (runWOps ops w).contents = w.contents ++ wopsBytes ops
      ∧ ((runWOps ops w).commit).buffer = (runWOps ops w).buffer
      ∧ ((runWOps ops w).commit).offset = (runWOps ops w).offset := by
  obtain ⟨hcon, hoff, hcom, hI2⟩ := runWOps_ext ops w hI
  refine ⟨?_, hcon, rfl, rfl⟩
  show (runWOps ops w).committed ++ [(runWOps ops w).contents] = _
  rw [hcom, hcon]

/-- C9 witness: a concrete buffer and write script satisfying the
hypothesis. -/
theorem c9_commit_publishes_witness :
    AWBInv (AWB.init 4)
      ∧ (((runWOps [WOp.wbyte 7] (AWB.init 4)).commit).committed
            = (AWB.init 4).committed ++ [(AWB.init 4).contents ++ wopsBytes [WOp.wbyte 7]]
          ∧ (runWOps [WOp.wbyte 7] (AWB.init 4)).contents
            = (AWB.init 4).contents ++ wopsBytes [WOp.wbyte 7]
          ∧ ((runWOps [WOp.wbyte 7] (AWB.init 4)).commit).buffer
            = (runWOps [WOp.wbyte 7] (AWB.init 4)).buffer
          ∧ ((runWOps [WOp.wbyte 7] (AWB.init 4)).commit).offset
            = (runWOps [WOp.wbyte 7] (AWB.init 4)).offset) :=
  ⟨init_inv (by norm_num), c9_commit_publishes (AWB.init 4) [WOp.wbyte 7]
    (init_inv (by norm_num))⟩

/-- C9 counterexample: the claim says a committed buffer admits no further
effective writes; in the code a write after `commit` lands in the buffer and
a second `commit` publishes the extended contents `[1, 2]`. -/
theorem c9_commit_counterexample :
    ((((AWB.init 4).writeByte 1).commit.writeByte 2).commit).committed = [[1], [1, 2]] := by
  have i0 : AWBInv (AWB.init 4) := init_inv (by norm_num)
  have h1 := writeByte_ext (AWB.init 4) 1 i0
  obtain ⟨c1, o1, m1, i1⟩ := h1
  have hb1 : jsByte 1 = 1 := by decide
  have icommit : AWBInv ((AWB.init 4).writeByte 1).commit := i1
  have h2 := writeByte_ext ((AWB.init 4).writeByte 1).commit 2 icommit
  obtain ⟨c2, o2, m2, i2⟩ := h2
  have hb2 : jsByte 2 = 2 := by decide
  have hcc : (((AWB.init 4).writeByte 1).commit).contents = [1] := by
    show ((AWB.init 4).writeByte 1).contents = [1]
    rw [c1, init_contents, hb1]
    rfl
  show ((((AWB.init 4).writeByte 1).commit.writeByte 2).committed
      ++ [(((AWB.init 4).writeByte 1).commit.writeByte 2).contents]) = [[1], [1, 2]]
  rw [m2, c2, hcc, hb2]
  show (((AWB.init 4).writeByte 1).committed ++ [((AWB.init 4).writeByte 1).contents])
      ++ [[1] ++ [2]] = [[1], [1, 2]]
  rw [m1, c1, init_contents, hb1]
  rfl

/-! ## Reading back a varint -/

theorem jsShl_small {x shift : Nat} (h : x * 2 ^ shift < 2 ^ 31) :
    jsShl x shift = (x * 2 ^ shift : Nat) := by
  by_cases hx : x = 0
  · subst hx
    simp [jsShl, toSigned32]
  · have hs : shift < 32 := by
      by_contra hs
      have h1 : 2 ^ 31 ≤ 2 ^ shift := Nat.pow_le_pow_right (by norm_num) (by omega)
      have h2 : 2 ^ shift ≤ x * 2 ^ shift := Nat.le_mul_of_pos_left _ (by omega)
      omega
    rw [jsShl, Nat.mod_eq_of_lt hs, toSigned32_of_lt h]

theorem get?_middle (A B : List Nat) (x : Nat) :
    (A ++ x :: B).get? A.length = some x := by
  rw [List.get?_append_right (Nat.le_refl _)]
  simp

theorem wlBytes_nat (m : Nat) (h : m < 2 ^ 31) :
    wlBytes (m : Int)
      = if m < 127 then [m]
        else (128 + m % 128) :: wlBytes ((m / 128 : Nat) : Int) := by
  have hjs : js32 (m : Int) = m := js32_of_lt (by omega)
  rw [wlBytes]
  by_cases hm : m < 127
  · rw [if_pos (by exact_mod_cast hm), if_pos hm]
    unfold jsByte
    rw [hjs, Nat.mod_eq_of_lt (by omega)]
  · rw [if_neg (by exact_mod_cast hm), if_neg hm]
    unfold jsAnd127 jsShr7 jsToInt32
    rw [hjs, toSigned32_of_lt h]
    rw [Int.ofNat_ediv]
    rfl

theorem wlBytes_cons (m : Nat) (h : m < 2 ^ 31) :
    ∃ b tail, wlBytes (m : Int) = b :: tail := by
  rw [wlBytes_nat m h]
  by_cases hm : m < 127
  · exact ⟨m, [], by rw [if_pos hm]⟩
  · exact ⟨128 + m % 128, wlBytes ((m / 128 : Nat) : Int), by rw [if_neg hm]⟩

theorem readByte_get (buf : List Nat) (off : Nat) (b : Nat) (h : buf.get? off = some b) :
    ARB.readByte ⟨buf, off⟩ = some (b, ⟨buf, off + 1⟩) := by
  rw [ARB.readByte]
  simp only [List.get?_eq_getElem?] at h
  simp [h]

theorem readByte_none (buf : List Nat) (off : Nat) (h : buf.get? off = none) :
    ARB.readByte ⟨buf, off⟩ = none := by
  rw [ARB.readByte]
  simp only [List.get?_eq_getElem?] at h
  simp [h]

theorem readLoop_wl (m : Nat) (shift : Nat) (acc : Int) (pre post : List Nat)
    (b : Nat) (tail : List Nat) (hm : m * 2 ^ shift < 2 ^ 31) (hm31 : m < 2 ^ 31)
    (hshape : wlBytes (m : Int) = b :: tail) :
    ARB.readLengthLoop b ⟨pre ++ (b :: tail) ++ post, pre.length + 1⟩ shift
        (acc + jsShl (b % 128) shift)
      = some (acc + (m * 2 ^ shift : Nat),
          ⟨pre ++ (b :: tail) ++ post, pre.length + 1 + tail.length⟩) := by
  rw [wlBytes_nat m hm31] at hshape
  by_cases hlt : m < 127
  · rw [if_pos hlt] at hshape
    cases hshape
    rw [ARB.readLengthLoop]
    rw [if_neg (by omega)]
    rw [Nat.mod_eq_of_lt (by omega : m < 128), jsShl_small hm]
    simp
  · rw [if_neg hlt] at hshape
    have hrec : m / 128 < 2 ^ 31 := by omega
    obtain ⟨b2, tail2, hshape2⟩ := wlBytes_cons (m / 128) hrec
    cases hshape
    rw [hshape2]
    rw [ARB.readLengthLoop]
    rw [if_pos (by omega)]
    have hget : (pre ++ ((128 + m % 128) :: (b2 :: tail2)) ++ post).get? (pre.length + 1)
        = some b2 := by
      have hre : pre ++ ((128 + m % 128) :: (b2 :: tail2)) ++ post
          = (pre ++ [128 + m % 128]) ++ (b2 :: (tail2 ++ post)) := by
        simp
      rw [hre]
      have hlen : pre.length + 1 = (pre ++ [128 + m % 128]).length := by
        simp
      rw [hlen]
      exact get?_middle _ _ _
    have hrb := readByte_get _ _ _ hget
    split
    next b3 s3 heq =>
      rw [hrb] at heq
      injection heq with heq2
      injection heq2 with hb3 hs3
      subst hb3
      subst hs3
      have hmene : m / 128 * 2 ^ (shift + 7) < 2 ^ 31 := by
        have he : m / 128 * 2 ^ (shift + 7) = m / 128 * 128 * 2 ^ shift := by
          rw [pow_add]
          ring
        rw [he]
        calc m / 128 * 128 * 2 ^ shift ≤ m * 2 ^ shift := by
              have := Nat.div_mul_le_self m 128
              exact Nat.mul_le_mul_right _ this
        _ < 2 ^ 31 := hm
      have ih := readLoop_wl (m / 128) (shift + 7)
        (acc + jsShl ((128 + m % 128) % 128) shift)
        (pre ++ [128 + m % 128]) post b2 tail2 hmene hrec hshape2
      have hbuf : (pre ++ [128 + m % 128]) ++ (b2 :: tail2) ++ post
          = pre ++ ((128 + m % 128) :: (b2 :: tail2)) ++ post := by
        simp
      rw [hbuf] at ih
      have hlen2 : (pre ++ [128 + m % 128]).length = pre.length + 1 := by
        simp
      rw [hlen2] at ih
      rw [ih]
      have hv : acc + jsShl ((128 + m % 128) % 128) shift + (m / 128 * 2 ^ (shift + 7) : Nat)
          = acc + (m * 2 ^ shift : Nat) := by
        have hmod : (128 + m % 128) % 128 = m % 128 := by omega
        rw [hmod]
        have hsm : m % 128 * 2 ^ shift < 2 ^ 31 := by
          calc m % 128 * 2 ^ shift ≤ m * 2 ^ shift :=
                Nat.mul_le_mul_right _ (Nat.mod_le _ _)
          _ < 2 ^ 31 := hm
        rw [jsShl_small hsm]
        have hsplit : (m % 128) * 2 ^ shift + m / 128 * 2 ^ (shift + 7) = m * 2 ^ shift := by
          rw [pow_add]
          have he2 : m / 128 * (2 ^ shift * 2 ^ 7) = m / 128 * 128 * 2 ^ shift := by
            norm_num
            ring
          rw [he2, ← Nat.add_mul]
          congr 1
          omega
        push_cast [← hsplit]
        ring
      rw [hv]
      congr 2
      simp
      omega
    next heq =>
      rw [hrb] at heq
      cases heq
termination_by m
decreasing_by omega

theorem readLength_wl (m : Nat) (hm : m < 2 ^ 31) (pre post : List Nat) :
    ARB.readLength ⟨pre ++ wlBytes (m : Int) ++ post, pre.length⟩
      = some ((m : Int),
          ⟨pre ++ wlBytes (m : Int) ++ post, pre.length + (wlBytes (m : Int)).length⟩) := by
  obtain ⟨b, tail, hshape⟩ := wlBytes_cons m hm
  rw [hshape]
  have hget : (pre ++ (b :: tail) ++ post).get? pre.length = some b := by
    have hre : pre ++ (b :: tail) ++ post = pre ++ (b :: (tail ++ post)) := by
      simp
    rw [hre]
    exact get?_middle _ _ _
  have hrb := readByte_get _ _ _ hget
  rw [ARB.readLength]
  split
  next b3 s3 heq =>
    rw [hrb] at heq
    injection heq with heq2
    injection heq2 with hb3 hs3
    subst hb3
    subst hs3
    have h0 := readLoop_wl m 0 0 pre post b tail (by simpa using hm) hm hshape
    rw [zero_add] at h0
    rw [h0]
    congr 2
    · simp
    · simp
      omega
  next heq =>
    rw [hrb] at heq
    cases heq

/-! ## Varint length structure -/

theorem wl_length_lower (m : Nat) (hm : m < 2 ^ 31) :
    m < 127 * 128 ^ ((wlBytes (m : Int)).length - 1) := by
  rw [wlBytes_nat m hm]
  by_cases hlt : m < 127
  · rw [if_pos hlt]
    simpa using hlt
  · rw [if_neg hlt]
    have hL : 1 ≤ (wlBytes ((m / 128 : Nat) : Int)).length := by
      obtain ⟨b, t, h⟩ := wlBytes_cons (m / 128) (by omega)
      rw [h]
      simp
    obtain ⟨k, hk⟩ : ∃ k, (wlBytes ((m / 128 : Nat) : Int)).length = k + 1 :=
      ⟨(wlBytes ((m / 128 : Nat) : Int)).length - 1, by omega⟩
    have IH := wl_length_lower (m / 128) (by omega)
    rw [hk] at IH
    simp only [List.length_cons, hk, Nat.add_sub_cancel] at *
    calc m < 128 * (m / 128 + 1) := by omega
    _ ≤ 128 * (127 * 128 ^ k) := Nat.mul_le_mul_left _ (by omega)
    _ = 127 * 128 ^ (k + 1) := by ring
termination_by m
decreasing_by omega

theorem wl_length_upper (m : Nat) (hm : m < 2 ^ 31) :
    (wlBytes (m : Int)).length = 1
      ∨ 127 * 128 ^ ((wlBytes (m : Int)).length - 2) ≤ m := by
  rw [wlBytes_nat m hm]
  by_cases hlt : m < 127
  · rw [if_pos hlt]
    left
    simp
  · rw [if_neg hlt]
    right
    have IH := wl_length_upper (m / 128) (by omega)
    rcases IH with h1 | h2
    · rw [List.length_cons, h1]
      norm_num
      omega
    · obtain ⟨k, hk⟩ : ∃ k, (wlBytes ((m / 128 : Nat) : Int)).length = k + 2 := by
        have hL : 2 ≤ (wlBytes ((m / 128 : Nat) : Int)).length := by
          by_contra hc
          have hL1 : 1 ≤ (wlBytes ((m / 128 : Nat) : Int)).length := by
            obtain ⟨b, t, h⟩ := wlBytes_cons (m / 128) (by omega)
            rw [h]
            simp
          have hone : (wlBytes ((m / 128 : Nat) : Int)).length = 1 := by omega
          rw [hone] at h2
          have hlow := wl_length_lower (m / 128) (by omega)
          rw [hone] at hlow
          norm_num at h2 hlow
          omega
        exact ⟨(wlBytes ((m / 128 : Nat) : Int)).length - 2, by omega⟩
      rw [hk] at h2
      rw [List.length_cons, hk]
      have he : k + 2 + 1 - 2 = k + 1 := by omega
      rw [he]
      have hf : 127 * 128 ^ (k + 1) = 128 * (127 * 128 ^ k) := by ring
      rw [hf]
      calc 128 * (127 * 128 ^ k) ≤ 128 * (m / 128) := Nat.mul_le_mul_left _ h2
      _ ≤ m := by omega
termination_by m
decreasing_by omega

theorem wl_shape (m : Nat) (hm : m < 2 ^ 31) :
    ∃ bs b, wlBytes (m : Int) = bs ++ [b] ∧ b < 128 ∧ ∀ x ∈ bs, 128 ≤ x := by
  rw [wlBytes_nat m hm]
  by_cases hlt : m < 127
  · rw [if_pos hlt]
    exact ⟨[], m, by simp, by omega, by simp⟩
  · rw [if_neg hlt]
    obtain ⟨bs, b, heq, hb, hbs⟩ := wl_shape (m / 128) (by omega)
    refine ⟨(128 + m % 128) :: bs, b, ?_, hb, ?_⟩
    · rw [heq]
      simp
    · intro x hx
      rcases List.mem_cons.mp hx with h | h
      · omega
      · exact hbs x h
termination_by m
decreasing_by omega

/-- C2: corrected.  What holds: for `n` in `[0, 2 ^ 31)` the varint round
trip succeeds, the continuation bytes have the high bit set and the
terminator has it clear, and the encoded size is the least `k ≥ 1` with
`n < 127 * 128 ^ (k - 1)` (captured by the two bounds below).  What fails in
the claim: the boundary is `length < 127`, so the most significant 7-bit
group 127 costs an extra byte (size is NOT `ceil(bits/7)`: 127 encodes in 2
bytes), and for `n ≥ 2 ^ 31` the signed 32-bit shift corrupts the value
(see the counterexample). -/
theorem c2_varint_law (n : Nat) (c : Nat) (hn : n < 2 ^ 31) (hc : 0 < c) :
    (AWB.writeLength (n : Int) (AWB.init c)).contents = wlBytes (n : Int)
    ∧ ARB.readLength ⟨(AWB.writeLength (n : Int) (AWB.init c)).contents, 0⟩
        = some ((n : Int),
            ⟨(AWB.writeLength (n : Int) (AWB.init c)).contents,
             (AWB.writeLength (n : Int) (AWB.init c)).contents.length⟩)
    ∧ n < 127 * 128 ^ ((AWB.writeLength (n : Int) (AWB.init c)).contents.length - 1)
    ∧ ((AWB.writeLength (n : Int) (AWB.init c)).contents.length = 1
        ∨ 127 * 128 ^ ((AWB.writeLength (n : Int) (AWB.init c)).contents.length - 2) ≤ n)
    ∧ (∃ bs b, (AWB.writeLength (n : Int) (AWB.init c)).contents = bs ++ [b]
        ∧ b < 128 ∧ ∀ x ∈ bs, 128 ≤ x) := by
  have hcon : (AWB.writeLength (n : Int) (AWB.init c)).contents = wlBytes (n : Int) := by
    have h := (writeLength_ext (n : Int) (AWB.init c) (init_inv hc)).1
    rw [init_contents] at h
    simpa using h
  refine ⟨hcon, ?_, ?_, ?_, ?_⟩ <;> rw [hcon]
  · have h := readLength_wl n hn [] []
    simpa using h
  · exact wl_length_lower n hn
  · exact wl_length_upper n hn
  · exact wl_shape n hn

/-- C2 witness: the scenario S2 instance, `writeLength(200)` on a fresh
buffer of capacity 4, with hypotheses discharged concretely. -/
theorem c2_varint_law_witness :
    (200 : Nat) < 2 ^ 31 ∧ (0 : Nat) < 4
      ∧ ARB.readLength ⟨(AWB.writeLength ((200 : Nat) : Int) (AWB.init 4)).contents, 0⟩
          = some (((200 : Nat) : Int),
              ⟨(AWB.writeLength ((200 : Nat) : Int) (AWB.init 4)).contents,
               (AWB.writeLength ((200 : Nat) : Int) (AWB.init 4)).contents.length⟩) :=
  ⟨by norm_num, by norm_num, (c2_varint_law 200 4 (by norm_num) (by norm_num)).2.1⟩

/-- C2 counterexample: the claim asserts the encoded size is
`ceil(bits_needed(n)/7)` (so 1 byte for 127) and the round trip holds on all
of `[0, 2 ^ 32)`; in the code 127 encodes in two bytes, and `writeLength`
followed by `readLength` maps `2 ^ 31` to 0. -/
theorem c2_varint_counterexample :
    (AWB.writeLength ((127 : Nat) : Int) (AWB.init 4)).contents.length = 2
    ∧ ARB.readLength ⟨(AWB.writeLength ((2 ^ 31 : Nat) : Int) (AWB.init 4)).contents, 0⟩
        = some ((0 : Int), ⟨[128, 0], 2⟩)
    ∧ (0 : Int) ≠ ((2 ^ 31 : Nat) : Int) := by
  have h0 : wlBytes (0 : Int) = [0] := by
    rw [wlBytes, if_pos (by norm_num)]
    decide
  have h127 : wlBytes ((127 : Nat) : Int) = [255, 0] := by
    rw [wlBytes_nat 127 (by norm_num)]
    norm_num
    rw [h0]
  have hbig : wlBytes ((2 ^ 31 : Nat) : Int) = [128, 0] := by
    rw [wlBytes]
    rw [if_neg (by push_cast; norm_num)]
    have ha : jsAnd127 ((2 ^ 31 : Nat) : Int) = 0 := by
      unfold jsAnd127 js32
      decide
    have hs : jsShr7 ((2 ^ 31 : Nat) : Int) = -16777216 := by
      unfold jsShr7 jsToInt32 toSigned32 js32
      norm_num
    rw [ha, hs]
    rw [wlBytes]
    rw [if_pos (by norm_num)]
    unfold jsByte js32
    decide
  have hcon127 : (AWB.writeLength ((127 : Nat) : Int) (AWB.init 4)).contents = [255, 0] := by
    have h := (writeLength_ext ((127 : Nat) : Int) (AWB.init 4) (init_inv (by norm_num))).1
    rw [init_contents, h127] at h
    simpa using h
  have hconbig : (AWB.writeLength ((2 ^ 31 : Nat) : Int) (AWB.init 4)).contents = [128, 0] := by
    have h := (writeLength_ext ((2 ^ 31 : Nat) : Int) (AWB.init 4) (init_inv (by norm_num))).1
    rw [init_contents, hbig] at h
    simpa using h
  refine ⟨by rw [hcon127]; rfl, ?_, by norm_num⟩
  rw [hconbig]
  have hb0 : ARB.readByte ⟨[128, 0], 0⟩ = some (128, ⟨[128, 0], 1⟩) :=
    readByte_get _ _ _ (by norm_num)
  have hb1 : ARB.readByte ⟨[128, 0], 1⟩ = some (0, ⟨[128, 0], 2⟩) :=
    readByte_get _ _ _ (by norm_num)
  rw [ARB.readLength]
  split
  next b3 s3 heq =>
    rw [hb0] at heq
    injection heq with heq2
    injection heq2 with hb3 hs3
    subst hb3
    subst hs3
    rw [ARB.readLengthLoop]
    rw [if_pos (by norm_num)]
    split
    next b4 s4 heq4 =>
      rw [hb1] at heq4
      injection heq4 with heq5
      injection heq5 with hb4 hs4
      subst hb4
      subst hs4
      rw [ARB.readLengthLoop]
      rw [if_neg (by norm_num)]
      have hz : jsShl (128 % 128) 0 + jsShl (0 % 128) (0 + 7) = 0 := by
        unfold jsShl toSigned32
        norm_num
      rw [hz]
    next heq4 =>
      rw [hb1] at heq4
      cases heq4
  next heq =>
    rw [hb0] at heq
    cases heq

/-! ## Reading back a 4-byte big-endian int -/

theorem get?_at (A B : List Nat) (x : Nat) (n : Nat) (h : n = A.length) :
    (A ++ x :: B).get? n = some x := by
  subst h
  exact get?_middle A B x

theorem readInt_bytes (pre post : List Nat) (b0 b1 b2 b3 : Nat) :
    ARB.readInt ⟨pre ++ [b0, b1, b2, b3] ++ post, pre.length⟩
      = some (toSigned32 (b0 * 2 ^ 24 + b1 * 2 ^ 16 + b2 * 2 ^ 8 + b3),
          ⟨pre ++ [b0, b1, b2, b3] ++ post, pre.length + 4⟩) := by
  have hg0 : (pre ++ [b0, b1, b2, b3] ++ post).get? pre.length = some b0 := by
    have he : pre ++ [b0, b1, b2, b3] ++ post = pre ++ b0 :: ([b1, b2, b3] ++ post) := by
      simp
    rw [he]
    exact get?_at _ _ _ _ rfl
  have hg1 : (pre ++ [b0, b1, b2, b3] ++ post).get? (pre.length + 1) = some b1 := by
    have he : pre ++ [b0, b1, b2, b3] ++ post
        = (pre ++ [b0]) ++ b1 :: ([b2, b3] ++ post) := by
      simp
    rw [he]
    exact get?_at _ _ _ _ (by simp)
  have hg2 : (pre ++ [b0, b1, b2, b3] ++ post).get? (pre.length + 2) = some b2 := by
    have he : pre ++ [b0, b1, b2, b3] ++ post
        = (pre ++ [b0, b1]) ++ b2 :: ([b3] ++ post) := by
      simp
    rw [he]
    exact get?_at _ _ _ _ (by simp)
  have hg3 : (pre ++ [b0, b1, b2, b3] ++ post).get? (pre.length + 3) = some b3 := by
    have he : pre ++ [b0, b1, b2, b3] ++ post
        = (pre ++ [b0, b1, b2]) ++ b3 :: post := by
      simp
    rw [he]
    exact get?_at _ _ _ _ (by simp)
  rw [ARB.readInt]
  rw [hg0, hg1, hg2, hg3]

theorem bytes_recompose (u : Nat) (h : u < 2 ^ 32) :
    u / 2 ^ 24 % 256 * 2 ^ 24 + u / 2 ^ 16 % 256 * 2 ^ 16 + u / 2 ^ 8 % 256 * 2 ^ 8
      + u % 256 = u := by
  omega

/-- C5: corrected.  What holds: `writeInt` stores the unsigned 32-bit
pattern big-endian, and `readInt` reads those 4 bytes back through
`getInt32`, i.e. with SIGNED semantics: the value returns intact exactly on
`[0, 2 ^ 31)`, while values in `[2 ^ 31, 2 ^ 32)` come back as `v - 2 ^ 32`.
What fails in the claim: the reader does not match the unsigned semantics of
the writer on `[2 ^ 31, 2 ^ 32)` (see the counterexample). -/
theorem c5_int_roundtrip (v : Nat) (c : Nat) (hv : v < 2 ^ 32) (hc : 0 < c) :
    (AWB.writeInt (v : Int) (AWB.init c)).contents = wiBytes (v : Int)
    ∧ ARB.readInt ⟨(AWB.writeInt (v : Int) (AWB.init c)).contents, 0⟩
        = some (toSigned32 v, ⟨(AWB.writeInt (v : Int) (AWB.init c)).contents, 4⟩)
    ∧ (v < 2 ^ 31 → toSigned32 v = (v : Int))
    ∧ (2 ^ 31 ≤ v → toSigned32 v = (v : Int) - 2 ^ 32) := by
  have hcon : (AWB.writeInt (v : Int) (AWB.init c)).contents = wiBytes (v : Int) := by
    have h := (writeInt_ext (AWB.init c) (v : Int) (init_inv hc)).1
    rw [init_contents] at h
    simpa using h
  have hju : js32 (v : Int) = v := js32_of_lt hv
  refine ⟨hcon, ?_, fun h => toSigned32_of_lt h, fun h => toSigned32_of_ge h hv⟩
  rw [hcon]
  have h := readInt_bytes [] [] (js32 (v : Int) / 2 ^ 24 % 256) (js32 (v : Int) / 2 ^ 16 % 256)
    (js32 (v : Int) / 2 ^ 8 % 256) (js32 (v : Int) % 256)
  simp only [List.nil_append, List.append_nil, List.length_nil, Nat.zero_add] at h
  show ARB.readInt ⟨wiBytes (v : Int), 0⟩ = _
  rw [show wiBytes (v : Int) = [js32 (v : Int) / 2 ^ 24 % 256, js32 (v : Int) / 2 ^ 16 % 256,
    js32 (v : Int) / 2 ^ 8 % 256, js32 (v : Int) % 256] from rfl]
  rw [h]
  rw [hju, bytes_recompose v hv]

/-- C5 witness: the scenario S1 instance `writeInt(0x01020304)` on a fresh
buffer, hypotheses discharged concretely. -/
theorem c5_int_roundtrip_witness :
    (16909060 : Nat) < 2 ^ 32 ∧ (0 : Nat) < 4
      ∧ ((AWB.writeInt ((16909060 : Nat) : Int) (AWB.init 4)).contents
            = wiBytes ((16909060 : Nat) : Int)
          ∧ ARB.readInt ⟨(AWB.writeInt ((16909060 : Nat) : Int) (AWB.init 4)).contents, 0⟩
              = some (toSigned32 16909060,
                  ⟨(AWB.writeInt ((16909060 : Nat) : Int) (AWB.init 4)).contents, 4⟩)
          ∧ ((16909060 : Nat) < 2 ^ 31 → toSigned32 16909060 = ((16909060 : Nat) : Int))
          ∧ (2 ^ 31 ≤ (16909060 : Nat) →
              toSigned32 16909060 = ((16909060 : Nat) : Int) - 2 ^ 32)) :=
  ⟨by norm_num, by norm_num, c5_int_roundtrip 16909060 4 (by norm_num) (by norm_num)⟩

/-- C5 counterexample: the claim asserts `readInt(writeInt(v)) = v` on all of
`[0, 2 ^ 32)`, but at `v = 2 ^ 31` the signed reader returns `-2 ^ 31`. -/
theorem c5_int_counterexample :
    ARB.readInt ⟨(AWB.writeInt ((2 ^ 31 : Nat) : Int) (AWB.init 4)).contents, 0⟩
      = some (-(2 ^ 31 : Int), ⟨(AWB.writeInt ((2 ^ 31 : Nat) : Int) (AWB.init 4)).contents, 4⟩)
    ∧ (-(2 ^ 31 : Int)) ≠ ((2 ^ 31 : Nat) : Int) := by
  have hcon : (AWB.writeInt ((2 ^ 31 : Nat) : Int) (AWB.init 4)).contents
      = wiBytes ((2 ^ 31 : Nat) : Int) := by
    have h := (writeInt_ext (AWB.init 4) ((2 ^ 31 : Nat) : Int) (init_inv (by norm_num))).1
    rw [init_contents] at h
    simpa using h
  have hwi : wiBytes ((2 ^ 31 : Nat) : Int) = [128, 0, 0, 0] := by
    unfold wiBytes js32
    decide
  constructor
  · rw [hcon, hwi]
    have h := readInt_bytes [] [] 128 0 0 0
    simp only [List.nil_append, List.append_nil, List.length_nil, Nat.zero_add] at h
    rw [h]
    have : toSigned32 (128 * 2 ^ 24 + 0 * 2 ^ 16 + 0 * 2 ^ 8 + 0) = -(2 ^ 31 : Int) := by
      unfold toSigned32
      decide
    rw [this]
  · norm_num

/-! ## Multiplexer lemmas -/

theorem foldl_close_pending (ids : List String) (t : MuxState) :
    (ids.foldl MuxState.closeChannel t).pendingOpen = t.pendingOpen := by
  induction ids generalizing t with
  | nil => rfl
  | cons x xs ih =>
    simp only [List.foldl]
    rw [ih]
    rfl

theorem foldl_close_count (ids : List String) (t : MuxState) (hN : ids.Nodup) (id : String) :
    (ids.foldl MuxState.closeChannel t).closedFired id
      = if id ∈ ids then t.closedFired id + 1 else t.closedFired id := by
  induction ids generalizing t with
  | nil => simp
  | cons x xs ih =>
    have hxs : xs.Nodup := (List.nodup_cons.mp hN).2
    have hx : x ∉ xs := (List.nodup_cons.mp hN).1
    simp only [List.foldl]
    rw [ih _ hxs]
    by_cases hmem : id ∈ xs
    · have hne : id ≠ x := fun h => hx (h ▸ hmem)
      rw [if_pos hmem, if_pos (List.mem_cons.mpr (Or.inr hmem))]
      show bumpCount t.closedFired x id + 1 = t.closedFired id + 1
      unfold bumpCount
      rw [if_neg hne]
    · rw [if_neg hmem]
      by_cases heq : id = x
      · subst heq
        rw [if_pos (List.mem_cons.mpr (Or.inl rfl))]
        show bumpCount t.closedFired id id = t.closedFired id + 1
        unfold bumpCount
        rw [if_pos rfl]
      · rw [if_neg (by
          intro hc
          rcases List.mem_cons.mp hc with h | h
          · exact heq h
          · exact hmem h)]
        show bumpCount t.closedFired x id = t.closedFired id
        unfold bumpCount
        rw [if_neg heq]

theorem muxStep_nodup (s : MuxState) (e : MuxEvent) (h : s.openChannels.Nodup) :
    (muxStep s e).1.openChannels.Nodup := by
  cases e with
  | localOpen id => exact h
  | inAckOpen id =>
    show (mapSetKey s.openChannels id).Nodup
    unfold mapSetKey
    split
    · exact h
    · rename_i hmem
      rw [List.nodup_append]
      exact ⟨h, by simp, by simp [List.Disjoint]; intro a ha hae; exact hmem (hae ▸ ha)⟩
  | inOpen id =>
    simp only [muxStep]
    split
    · exact h
    · rename_i hmem
      show (s.openChannels ++ [id]).Nodup
      rw [List.nodup_append]
      exact ⟨h, by simp, by simp [List.Disjoint]; intro a ha hae; exact hmem (hae ▸ ha)⟩
  | inClose id =>
    simp only [muxStep]
    split
    · exact h.erase id
    · exact h
  | inData id => exact h
  | transportClose => simp [muxStep]

/-- C7: confirmed.  After the underlying channel fires `closed`
(`handleClose`), both maps are empty, every channel open at that instant has
fired its closed signal exactly once, and no other channel fired.  The
`Nodup` hypothesis is the key-uniqueness of the `openChannels` map, which
`muxStep_nodup` shows every reachable state satisfies. -/
theorem c7_transport_close (s : MuxState) (hN : s.openChannels.Nodup) :
    (muxStep s .transportClose).1.pendingOpen = []
    ∧ (muxStep s .transportClose).1.openChannels = []
    ∧ (∀ id ∈ s.openChannels,
        (muxStep s .transportClose).1.closedFired id = s.closedFired id + 1)
    ∧ (∀ id, id ∉ s.openChannels →
        (muxStep s .transportClose).1.closedFired id = s.closedFired id) := by
  refine ⟨?_, rfl, ?_, ?_⟩
  · show (s.openChannels.foldl MuxState.closeChannel { s with pendingOpen := [] }).pendingOpen = []
    rw [foldl_close_pending]
  · intro id hid
    show (s.openChannels.foldl MuxState.closeChannel { s with pendingOpen := [] }).closedFired id
      = s.closedFired id + 1
    rw [foldl_close_count _ _ hN, if_pos hid]
  · intro id hid
    show (s.openChannels.foldl MuxState.closeChannel { s with pendingOpen := [] }).closedFired id
      = s.closedFired id
    rw [foldl_close_count _ _ hN, if_neg hid]

/-- C7 witness: a concrete state with one pending open and two open
channels. -/
theorem c7_transport_close_witness :
    (⟨["p"], ["a", "b"], fun _ => 0, []⟩ : MuxState).openChannels.Nodup
    ∧ ((muxStep ⟨["p"], ["a", "b"], fun _ => 0, []⟩ .transportClose).1.pendingOpen = []
      ∧ (muxStep ⟨["p"], ["a", "b"], fun _ => 0, []⟩ .transportClose).1.openChannels = []
      ∧ (∀ id ∈ (⟨["p"], ["a", "b"], fun _ => 0, []⟩ : MuxState).openChannels,
          (muxStep ⟨["p"], ["a", "b"], fun _ => 0, []⟩ .transportClose).1.closedFired id
            = (⟨["p"], ["a", "b"], fun _ => 0, []⟩ : MuxState).closedFired id + 1)
      ∧ (∀ id, id ∉ (⟨["p"], ["a", "b"], fun _ => 0, []⟩ : MuxState).openChannels →
          (muxStep ⟨["p"], ["a", "b"], fun _ => 0, []⟩ .transportClose).1.closedFired id
            = (⟨["p"], ["a", "b"], fun _ => 0, []⟩ : MuxState).closedFired id)) :=
  ⟨by decide, c7_transport_close ⟨["p"], ["a", "b"], fun _ => 0, []⟩ (by decide)⟩

/-- C1: code_bug.  The claim (and the specification invariant) require
`pendingOpen` and `openChannels` to stay disjoint, in particular across the
simultaneous-open collision; but the Open handler calls the pending resolver
WITHOUT deleting its `pendingOpen` entry (channel.ts lines 102 to 106), so
after a local `open("a")` followed by an inbound Open("a") the id sits in
both maps.  This theorem evaluates the multiplexer at that failing input. -/
theorem c1_collision_state :
    "a" ∈ (muxRun MuxState.initial [MuxEvent.localOpen "a", MuxEvent.inOpen "a"]).pendingOpen
    ∧ "a" ∈ (muxRun MuxState.initial [MuxEvent.localOpen "a", MuxEvent.inOpen "a"]).openChannels := by
  decide

/-- C8: corrected.  What holds: an AckOpen with no pending resolver throws
(`resolve!(channel)` is a call on `undefined`), surfacing as a fatal error,
though only after the handler has already registered a channel under the id.
What fails in the claim: an Open for an id already in `openChannels` is NOT
an error; the handler silently ignores the frame and leaves the state
unchanged (see the counterexample). -/
theorem c8_protocol_errors (s : MuxState) (id : String) :
    (id ∉ s.pendingOpen → (muxStep s (.inAckOpen id)).2 = true)
    ∧ (id ∈ s.openChannels → muxStep s (.inOpen id) = (s, false)) := by
  constructor
  · intro h
    simp [muxStep, h]
  · intro h
    simp [muxStep, h]

/-- C8 witness: a fresh multiplexer receiving AckOpen("a"), and one with "a"
open receiving a duplicate Open("a"). -/
theorem c8_protocol_errors_witness :
    ("a" ∉ MuxState.initial.pendingOpen
      ∧ (muxStep MuxState.initial (.inAckOpen "a")).2 = true)
    ∧ ("a" ∈ (⟨[], ["a"], fun _ => 0, []⟩ : MuxState).openChannels
      ∧ muxStep ⟨[], ["a"], fun _ => 0, []⟩ (.inOpen "a")
          = (⟨[], ["a"], fun _ => 0, []⟩, false)) :=
  ⟨⟨by decide, (c8_protocol_errors MuxState.initial "a").1 (by decide)⟩,
   ⟨by decide, (c8_protocol_errors ⟨[], ["a"], fun _ => 0, []⟩ "a").2 (by decide)⟩⟩

/-- C8 counterexample: dispatching Open("a") twice, the second being the
duplicate-id protocol error of the claim, completes silently: no throw and
no state change, where the claim says it surfaces as a fatal error. -/
theorem c8_duplicate_open_silent :
    muxStep (muxStep MuxState.initial (.inOpen "a")).1 (.inOpen "a")
      = ((muxStep MuxState.initial (.inOpen "a")).1, false) := by
  rfl

/-! ## Emitter lemmas -/

theorem Emitter.eq_of_listeners {α : Type} {e1 e2 : Emitter α}
    (h : e1.listeners = e2.listeners) : e1 = e2 := by
  cases e1
  cases e2
  cases h
  rfl

theorem subscribeAll_spec {α : Type} (e : Emitter α) (ls : List α) :
    (e.subscribeAll ls).1.listeners = e.listeners ++ ls
    ∧ ∀ j, ((e.subscribeAll ls).2).get? j
        = if j < ls.length then some (e.listeners.length + j + 1) else none := by
  induction ls generalizing e with
  | nil => simp [Emitter.subscribeAll]
  | cons l ls ih =>
    obtain ⟨ih1, ih2⟩ := ih ⟨e.listeners ++ [l]⟩
    constructor
    · show (Emitter.subscribeAll ⟨e.listeners ++ [l]⟩ ls).1.listeners = _
      rw [ih1]
      simp
    · intro j
      show ((e.listeners.length + 1) :: (Emitter.subscribeAll ⟨e.listeners ++ [l]⟩ ls).2).get? j
        = _
      cases j with
      | zero => simp
      | succ k =>
        simp only [List.get?]
        rw [ih2 k]
        simp only [List.length_append, List.length_cons, List.length_nil]
        by_cases hk : k < ls.length
        · rw [if_pos hk, if_pos (by omega)]
          congr 1
          omega
        · rw [if_neg hk, if_neg (by omega)]

/-- C10: confirmed.  Registration captures `position = listeners.length`
AFTER the push, i.e. one past the index of the listener just registered; so
for listeners `l1..ln` registered in order on a fresh emitter, the j-th
(0-based) registration returns position `j + 1`, and its `dispose` removes
the element at index `j + 1` — the listener registered immediately after —
or nothing when it was the last; the disposed-on listener itself survives
and is still invoked by `fire`. -/
theorem c10_dispose_off_by_one (α : Type) (ls : List α) (j : Nat) (hj : j < ls.length) :
    (Emitter.subscribeAll ⟨[]⟩ ls).1 = ⟨ls⟩
    ∧ (Emitter.subscribeAll ⟨[]⟩ ls).2.get? j = some (j + 1)
    ∧ Emitter.fireList (Emitter.disposeAt ⟨ls⟩ (j + 1)) = ls.eraseIdx (j + 1)
    ∧ (j + 1 = ls.length → Emitter.disposeAt ⟨ls⟩ (j + 1) = ⟨ls⟩)
    ∧ (∀ hj2 : j < (Emitter.fireList (Emitter.disposeAt ⟨ls⟩ (j + 1))).length,
        (Emitter.fireList (Emitter.disposeAt ⟨ls⟩ (j + 1))).get ⟨j, hj2⟩ = ls.get ⟨j, hj⟩)
    ∧ ls.get ⟨j, hj⟩ ∈ Emitter.fireList (Emitter.disposeAt ⟨ls⟩ (j + 1)) := by
  obtain ⟨h1, h2⟩ := subscribeAll_spec (⟨[]⟩ : Emitter α) ls
  have hfire : Emitter.fireList (Emitter.disposeAt ⟨ls⟩ (j + 1))
      = ls.take (j + 1) ++ ls.drop (j + 2) := rfl
  have hget : ∀ hj2 : j < (Emitter.fireList (Emitter.disposeAt ⟨ls⟩ (j + 1))).length,
      (Emitter.fireList (Emitter.disposeAt ⟨ls⟩ (j + 1))).get ⟨j, hj2⟩ = ls.get ⟨j, hj⟩ := by
    intro hj2
    rw [List.get_eq_getElem, List.get_eq_getElem]
    have hj3 : j < (ls.take (j + 1) ++ ls.drop (j + 2)).length := by
      rw [← hfire]
      exact hj2
    have hjt : j < (ls.take (j + 1)).length := by
      rw [List.length_take]
      omega
    calc (Emitter.fireList (Emitter.disposeAt ⟨ls⟩ (j + 1)))[j]
        = (ls.take (j + 1) ++ ls.drop (j + 2))[j] := by
          congr 1
    _ = (ls.take (j + 1))[j] := by
          rw [List.getElem_append_left]
    _ = ls[j] := by
          rw [List.getElem_take]
  refine ⟨?_, ?_, ?_, ?_, hget, ?_⟩
  · apply Emitter.eq_of_listeners
    rw [h1]
    simp
  · rw [h2 j, if_pos hj]
    simp
  · rw [hfire, List.eraseIdx_eq_take_drop_succ]
  · intro hlen
    apply Emitter.eq_of_listeners
    show ls.take (j + 1) ++ ls.drop (j + 2) = ls
    rw [List.take_of_length_le (by omega), List.drop_eq_nil_of_le (by omega)]
    simp
  · have hlenf : j < (Emitter.fireList (Emitter.disposeAt ⟨ls⟩ (j + 1))).length := by
      rw [hfire, List.length_append, List.length_take]
      omega
    rw [← hget hlenf]
    exact List.get_mem _ _ hlenf

/-- C10 witness: three listeners, disposing the first removes the second. -/
theorem c10_dispose_off_by_one_witness :
    (0 : Nat) < (["x", "y", "z"] : List String).length
    ∧ (Emitter.subscribeAll ⟨[]⟩ ["x", "y", "z"]).1 = ⟨["x", "y", "z"]⟩
    ∧ (Emitter.subscribeAll (⟨[]⟩ : Emitter String) ["x", "y", "z"]).2.get? 0 = some 1
    ∧ Emitter.fireList (Emitter.disposeAt ⟨["x", "y", "z"]⟩ 1)
        = (["x", "y", "z"] : List String).eraseIdx 1 := by
  have h := c10_dispose_off_by_one String ["x", "y", "z"] 0 (by decide)
  exact ⟨by decide, h.1, h.2.1, h.2.2.1⟩

/-! ## JSON scalar text lemmas -/

theorem digit_toNat (d : Nat) (h : d < 10) : (Char.ofNat (48 + d)).toNat = 48 + d := by
  interval_cases d <;> decide

theorem digit_isDigit (d : Nat) (h : d < 10) : isDigitCh (Char.ofNat (48 + d)) = true := by
  interval_cases d <;> decide

theorem natDigits_all_digit (n : Nat) : ∀ c ∈ natDigits n, isDigitCh c = true := by
  rw [natDigits]
  by_cases h : n < 10
  · rw [if_pos h]
    intro c hc
    rw [List.mem_singleton] at hc
    subst hc
    exact digit_isDigit n h
  · rw [if_neg h]
    intro c hc
    rcases List.mem_append.mp hc with h1 | h1
    · exact natDigits_all_digit (n / 10) c h1
    · rw [List.mem_singleton] at h1
      subst h1
      exact digit_isDigit (n % 10) (Nat.mod_lt _ (by norm_num))
termination_by n
decreasing_by omega

theorem natDigits_ne_nil (n : Nat) : natDigits n ≠ [] := by
  rw [natDigits]
  by_cases h : n < 10
  · rw [if_pos h]
    simp
  · rw [if_neg h]
    simp

theorem foldl_natDigits (n : Nat) (acc : Nat) :
    (natDigits n).foldl (fun a c => 10 * a + (c.toNat - 48)) acc
      = acc * 10 ^ (natDigits n).length + n := by
  rw [natDigits]
  by_cases h : n < 10
  · rw [if_pos h]
    simp only [List.foldl, List.length_singleton]
    rw [digit_toNat n h]
    omega
  · rw [if_neg h]
    rw [List.foldl_append, foldl_natDigits (n / 10) acc]
    simp only [List.foldl, List.length_append, List.length_singleton]
    rw [digit_toNat (n % 10) (Nat.mod_lt _ (by norm_num))]
    rw [pow_succ]
    have : acc * 10 ^ (natDigits (n / 10)).length * 10
        = acc * (10 ^ (natDigits (n / 10)).length * 10) := by ring
    omega
termination_by n
decreasing_by omega

theorem digitsVal_natDigits (n : Nat) : digitsVal (natDigits n) = n := by
  unfold digitsVal
  rw [foldl_natDigits n 0]
  simp

theorem scanStrBody_esc (cs : List Char) (rest : List Char) :
    scanStrBody (escStr cs ++ '"' :: rest) = some (cs, rest) := by
  induction cs with
  | nil => rfl
  | cons c cs ih =>
    show scanStrBody ((escCh c ++ escStr cs) ++ '"' :: rest) = _
    by_cases hc : c = '"' ∨ c = '\\'
    · have hesc : escCh c = ['\\', c] := by
        rcases hc with h | h <;> simp [escCh, h]
      rw [hesc]
      show scanStrBody ('\\' :: c :: (escStr cs ++ '"' :: rest)) = _
      rw [scanStrBody, ih]
    · rw [show escCh c = [c] from by
        unfold escCh
        rw [if_neg]
        simpa using hc]
      show scanStrBody (c :: (escStr cs ++ '"' :: rest)) = _
      rw [scanStrBody.eq_def]
      split
      · rename_i heq
        cases heq
      · rename_i c2 rest2 heq
        injection heq with h1 h2
        subst h1
        exfalso
        exact hc (Or.inr rfl)
      · rename_i rest2 heq
        injection heq with h1 h2
        exfalso
        exact hc (Or.inl h1)
      · rename_i c2 rest2 hne1 hne2 hne3 heq
        injection heq with h1 h2
        subst h1
        subst h2
        rw [ih]

theorem jsonParse_bool (b : Bool) :
    jsonParse (String.mk (jsonScalarStr (.bool b))) = .ok (.bool b) := by
  cases b <;> rfl

theorem jsonParse_str (s : String) :
    jsonParse (String.mk (jsonScalarStr (.str s))) = .ok (.str s) := by
  show jsonParse (String.mk ('"' :: (escStr s.data ++ ['"']))) = .ok (.str s)
  rw [jsonParse.eq_def]
  split
  · rename_i x heq
    injection heq with h1 h2
    exact absurd h1 (by decide)
  · rename_i x heq
    injection heq with h1 h2
    exact absurd h1 (by decide)
  · rename_i x heq
    injection heq with h1 h2
    exact absurd h1 (by decide)
  · rename_i x rest heq
    injection heq with h1 h2
    subst h2
    have hscan : scanStrBody (escStr s.data ++ ['"']) = some (s.data, []) := by
      have h := scanStrBody_esc s.data []
      simpa using h
    rw [hscan]
  · rename_i x rest heq
    injection heq with h1 h2
    exact absurd h1 (by decide)
  · rename_i cs hne1 hne2 hne3 hne4 hne5
    exact absurd rfl (hne4 (escStr s.data ++ ['"']))

theorem jsonParse_num (n : Int) :
    jsonParse (String.mk (jsonScalarStr (.num n))) = .ok (.num n) := by
  show jsonParse (String.mk (intText n)) = .ok (.num n)
  by_cases hn : n < 0
  · rw [show intText n = '-' :: natDigits (-n).toNat from by unfold intText; rw [if_pos hn]]
    rw [jsonParse.eq_def]
    split
    · rename_i x heq
      injection heq with h1 h2
      exact absurd h1 (by decide)
    · rename_i x heq
      injection heq with h1 h2
      exact absurd h1 (by decide)
    · rename_i x heq
      injection heq with h1 h2
      exact absurd h1 (by decide)
    · rename_i x rest heq
      injection heq with h1 h2
      exact absurd h1 (by decide)
    · rename_i x rest heq
      injection heq with h1 h2
      subst h2
      rw [if_pos ⟨natDigits_ne_nil _, by
        rw [List.all_eq_true]
        exact natDigits_all_digit _⟩]
      rw [digitsVal_natDigits]
      have hcast : ((Int.toNat (-n) : Nat) : Int) = -n := by omega
      rw [hcast, neg_neg]
    · rename_i cs hne1 hne2 hne3 hne4 hne5
      exact absurd rfl (hne5 (natDigits (-n).toNat))
  · rw [show intText n = natDigits n.toNat from by unfold intText; rw [if_neg hn]]
    have hd : ∀ c ∈ natDigits n.toNat, isDigitCh c = true := natDigits_all_digit _
    obtain ⟨c, cs, hcs⟩ : ∃ c cs, natDigits n.toNat = c :: cs := by
      cases hnd : natDigits n.toNat with
      | nil => exact absurd hnd (natDigits_ne_nil _)
      | cons c cs => exact ⟨c, cs, rfl⟩
    have hcdig : isDigitCh c = true := hd c (hcs ▸ List.mem_cons_self c cs)
    rw [jsonParse.eq_def]
    split
    · rename_i x heq
      rw [show (String.mk (natDigits n.toNat)).data = c :: cs from hcs] at heq
      injection heq with h1 h2
      subst h1
      simp [isDigitCh] at hcdig
    · rename_i x heq
      rw [show (String.mk (natDigits n.toNat)).data = c :: cs from hcs] at heq
      injection heq with h1 h2
      subst h1
      simp [isDigitCh] at hcdig
    · rename_i x heq
      rw [show (String.mk (natDigits n.toNat)).data = c :: cs from hcs] at heq
      injection heq with h1 h2
      subst h1
      simp [isDigitCh] at hcdig
    · rename_i x rest heq
      rw [show (String.mk (natDigits n.toNat)).data = c :: cs from hcs] at heq
      injection heq with h1 h2
      subst h1
      simp [isDigitCh] at hcdig
    · rename_i x rest heq
      rw [show (String.mk (natDigits n.toNat)).data = c :: cs from hcs] at heq
      injection heq with h1 h2
      subst h1
      simp [isDigitCh] at hcdig
    · rename_i cs2 hne1 hne2 hne3 hne4 hne5
      rw [if_pos ⟨natDigits_ne_nil _, by
        rw [List.all_eq_true]
        exact natDigits_all_digit _⟩]
      rw [digitsVal_natDigits]
      have hcast : ((Int.toNat n : Nat) : Int) = n := by omega
      rw [hcast]

/-! ## Encoder agreement: `writeTypedValue` emits `encTV` on encodable values -/

theorem enc_agree (n : Nat) :
    (∀ v : RValue, sizeOf v ≤ n → transportable v = true →
        writeTypedValue v = .ok (encTV v))
    ∧ (∀ es : List RValue, sizeOf es ≤ n → transportableList es = true →
        writeValues es = .ok (encTVList es))
    ∧ (∀ fs : List (String × RValue), sizeOf fs ≤ n → transportableFields fs = true →
        writeFields fs = .ok (encTVFields fs)) := by
  induction n with
  | zero =>
    refine ⟨fun v hv _ => ?_, fun es he _ => ?_, fun fs hf _ => ?_⟩
    · exfalso
      cases v <;> simp at hv
    · exfalso
      cases es <;> simp at he
    · exfalso
      cases fs <;> simp at hf
  | succ n ih =>
    obtain ⟨ih1, ih2, ih3⟩ := ih
    refine ⟨fun v hv ht => ?_, fun es he ht => ?_, fun fs hf ht => ?_⟩
    · cases v with
      | null => simp [transportable] at ht
      | func => simp [transportable] at ht
      | undef => simp [writeTypedValue, encTV]
      | bool b => simp [writeTypedValue, encTV]
      | num m => simp [writeTypedValue, encTV]
      | str s => simp [writeTypedValue, encTV]
      | bytes bs => simp [writeTypedValue, encTV]
      | arr es =>
        simp only [transportable, Bool.and_eq_true] at ht
        have hse : sizeOf es ≤ n := by
          simp at hv
          omega
        simp only [writeTypedValue, encTV]
        rw [ih2 es hse ht.2]
      | obj fs =>
        simp only [transportable, Bool.and_eq_true] at ht
        have hsf : sizeOf fs ≤ n := by
          simp at hv
          omega
        simp only [writeTypedValue, encTV]
        rw [ih3 fs hsf ht.2]
    · cases es with
      | nil => simp [writeValues, encTVList]
      | cons e es2 =>
        simp only [transportableList, Bool.and_eq_true] at ht
        have h1 : sizeOf e ≤ n := by
          simp at he
          omega
        have h2 : sizeOf es2 ≤ n := by
          simp at he
          omega
        simp only [writeValues, encTVList]
        rw [ih1 e h1 ht.1, ih2 es2 h2 ht.2]
    · cases fs with
      | nil => simp [writeFields, encTVFields]
      | cons kv fs2 =>
        obtain ⟨k, v⟩ := kv
        simp only [transportableFields, Bool.and_eq_true] at ht
        obtain ⟨⟨htf, htv⟩, hts⟩ := ht
        have h1 : sizeOf v ≤ n := by
          simp at hf
          omega
        have h2 : sizeOf fs2 ≤ n := by
          simp at hf
          omega
        simp only [writeFields, encTVFields]
        rw [if_neg (by simp at htf; simp [htf]), if_neg (by simp at htf; simp [htf])]
        rw [ih1 v h1 htv, ih3 fs2 h2 hts]

theorem transportableFields_filter (fs : List (String × RValue))
    (ht : transportableFields fs = true) :
    fs.filter (fun kv => !(isFuncV kv.2)) = fs := by
  induction fs with
  | nil => rfl
  | cons kv fs2 ih =>
    obtain ⟨k, v⟩ := kv
    simp only [transportableFields, Bool.and_eq_true] at ht
    rw [List.filter_cons]
    rw [if_pos (by simpa using ht.1.1)]
    rw [ih ht.2]

theorem encTV_length_pos (v : RValue) : 1 ≤ (encTV v).length := by
  cases v <;> simp [encTV]

theorem transportable_ne_null (v : RValue) (ht : transportable v = true) : v ≠ .null := by
  intro h
  subst h
  simp [transportable] at ht

theorem nullToUndef_id (args : List RValue) (ht : transportableList args = true) :
    nullToUndef args = args := by
  induction args with
  | nil => rfl
  | cons a args2 ih =>
    simp only [transportableList, Bool.and_eq_true] at ht
    have hne := transportable_ne_null a ht.1
    have ih2 := ih ht.2
    cases a
    case null => exact absurd rfl hne
    all_goals
      simp only [nullToUndef, List.map] at ih2 ⊢
      rw [ih2]

/-! ## Decoder round trip: `readTVF` inverts `encTV` on encodable values -/

theorem dec_roundtrip (n : Nat) :
    (∀ v : RValue, sizeOf v ≤ n → transportable v = true →
        ∀ (rest : List WireItem) (fuel : Nat), (encTV v).length ≤ fuel →
          readTVF fuel (encTV v ++ rest) = .ok (v, rest))
    ∧ (∀ es : List RValue, sizeOf es ≤ n → transportableList es = true →
        ∀ (rest : List WireItem) (fuel : Nat), (encTVList es).length < fuel →
          readValuesF fuel es.length (encTVList es ++ rest) = .ok (es, rest))
    ∧ (∀ fs : List (String × RValue), sizeOf fs ≤ n → transportableFields fs = true →
        ∀ (rest : List WireItem) (fuel : Nat), (encTVFields fs).length < fuel →
          readFieldsF fuel fs.length (encTVFields fs ++ rest) = .ok (fs, rest)) := by
  induction n with
  | zero =>
    refine ⟨fun v hv _ => ?_, fun es he _ => ?_, fun fs hf _ => ?_⟩
    · exfalso
      cases v <;> simp at hv
    · exfalso
      cases es <;> simp at he
    · exfalso
      cases fs <;> simp at hf
  | succ n ih =>
    obtain ⟨ih1, ih2, ih3⟩ := ih
    refine ⟨fun v hv ht rest fuel hfuel => ?_, fun es he ht rest fuel hfuel => ?_,
      fun fs hf ht rest fuel hfuel => ?_⟩
    · cases v with
      | null => simp [transportable] at ht
      | func => simp [transportable] at ht
      | undef =>
        cases fuel with
        | zero => simp [encTV] at hfuel
        | succ f =>
          simp only [encTV, List.cons_append, List.nil_append, readTVF]
          rw [readIntI_wIntN (by norm_num)]
          simp
      | bool b =>
        cases fuel with
        | zero => simp [encTV] at hfuel
        | succ f =>
          simp only [encTV, List.cons_append, List.nil_append, readTVF]
          rw [readIntI_wIntN (by norm_num)]
          simp [readStrI, jsonParse_bool]
      | num m =>
        cases fuel with
        | zero => simp [encTV] at hfuel
        | succ f =>
          simp only [encTV, List.cons_append, List.nil_append, readTVF]
          rw [readIntI_wIntN (by norm_num)]
          simp [readStrI, jsonParse_num]
      | str s =>
        cases fuel with
        | zero => simp [encTV] at hfuel
        | succ f =>
          simp only [encTV, List.cons_append, List.nil_append, readTVF]
          rw [readIntI_wIntN (by norm_num)]
          simp [readStrI, jsonParse_str]
      | bytes bs => simp [transportable] at ht
      | arr es =>
        simp only [transportable, Bool.and_eq_true, decide_eq_true_eq] at ht
        obtain ⟨hlen, hts⟩ := ht
        have hse : sizeOf es ≤ n := by
          simp at hv
          omega
        cases fuel with
        | zero => simp [encTV] at hfuel
        | succ f =>
          have hfl : (encTVList es).length < f := by
            simp [encTV] at hfuel
            omega
          simp only [encTV, List.cons_append, readTVF]
          rw [readIntI_wIntN (by norm_num)]
          simp only []
          rw [if_neg (by norm_num), if_neg (by norm_num), if_pos (by norm_num)]
          rw [readIntI_wIntN hlen]
          simp only []
          rw [if_neg (by omega)]
          rw [show ((es.length : Int)).toNat = es.length from by simp]
          rw [ih2 es hse hts rest f hfl]
      | obj fs =>
        simp only [transportable, Bool.and_eq_true, decide_eq_true_eq] at ht
        obtain ⟨hlen, hts⟩ := ht
        have hsf : sizeOf fs ≤ n := by
          simp at hv
          omega
        cases fuel with
        | zero => simp [encTV] at hfuel
        | succ f =>
          have hfl : (encTVFields fs).length < f := by
            simp [encTV] at hfuel
            omega
          simp only [encTV, transportableFields_filter fs hts, List.cons_append, readTVF]
          rw [readIntI_wIntN (by norm_num)]
          simp only []
          rw [if_neg (by norm_num), if_neg (by norm_num), if_neg (by norm_num),
            if_neg (by norm_num), if_pos (by norm_num)]
          rw [readIntI_wIntN hlen]
          simp only []
          rw [show ((fs.length : Int)).toNat = fs.length from by simp]
          rw [ih3 fs hsf hts rest f hfl]
    · cases es with
      | nil =>
        cases fuel with
        | zero => simp [encTVList] at hfuel
        | succ f => simp [encTVList, readValuesF]
      | cons e es2 =>
        simp only [transportableList, Bool.and_eq_true] at ht
        obtain ⟨hte, hts⟩ := ht
        have h1 : sizeOf e ≤ n := by
          simp at he
          omega
        have h2 : sizeOf es2 ≤ n := by
          simp at he
          omega
        cases fuel with
        | zero => simp [encTVList] at hfuel
        | succ f =>
          have hlenE := encTV_length_pos e
          have hfe : (encTV e).length ≤ f := by
            simp [encTVList] at hfuel
            omega
          have hfs : (encTVList es2).length < f := by
            simp [encTVList] at hfuel
            omega
          simp only [encTVList, List.length_cons, List.append_assoc, readValuesF]
          rw [ih1 e h1 hte (encTVList es2 ++ rest) f hfe]
          simp only []
          rw [ih2 es2 h2 hts rest f hfs]
    · cases fs with
      | nil =>
        cases fuel with
        | zero => simp [encTVFields] at hfuel
        | succ f => simp [encTVFields, readFieldsF]
      | cons kv fs2 =>
        obtain ⟨k, v⟩ := kv
        simp only [transportableFields, Bool.and_eq_true] at ht
        obtain ⟨⟨htf, htv⟩, hts⟩ := ht
        have h1 : sizeOf v ≤ n := by
          simp at hf
          omega
        have h2 : sizeOf fs2 ≤ n := by
          simp at hf
          omega
        cases fuel with
        | zero => simp [encTVFields] at hfuel
        | succ f =>
          have hlenV := encTV_length_pos v
          have hnf : isFuncV v = false := by
            simpa using htf
          have hfe : (encTV v).length ≤ f := by
            simp [encTVFields, hnf] at hfuel
            omega
          have hfs : (encTVFields fs2).length < f := by
            simp [encTVFields, hnf] at hfuel
            omega
          simp only [encTVFields, hnf, Bool.false_eq_true, if_false, List.length_cons,
            List.cons_append, List.append_assoc, readFieldsF]
          rw [show readStrI (.str k :: (encTV v ++ (encTVFields fs2 ++ rest)))
            = .ok (k, encTV v ++ (encTVFields fs2 ++ rest)) from rfl]
          simp only []
          rw [ih1 v h1 htv (encTVFields fs2 ++ rest) f hfe]
          simp only []
          rw [ih3 fs2 h2 hts rest f hfs]

/-! ## Wrapper round-trip lemmas -/

theorem writeTypedValue_ok (v : RValue) (ht : transportable v = true) :
    writeTypedValue v = .ok (encTV v) :=
  (enc_agree (sizeOf v)).1 v (Nat.le_refl _) ht

theorem writeValues_ok (args : List RValue) (ht : transportableList args = true) :
    writeValues args = .ok (encTVList args) :=
  (enc_agree (sizeOf args)).2.1 args (Nat.le_refl _) ht

theorem readTypedValue_enc (v : RValue) (ht : transportable v = true) (rest : List WireItem) :
    readTypedValue (encTV v ++ rest) = .ok (v, rest) := by
  unfold readTypedValue
  apply (dec_roundtrip (sizeOf v)).1 v (Nat.le_refl _) ht
  rw [List.length_append]
  omega

theorem readArrayD_enc (args : List RValue) (rest : List WireItem)
    (ht : transportableList args = true) (hlen : args.length < 2 ^ 31) :
    readArrayD (wIntN args.length :: (encTVList args ++ rest)) = .ok (args, rest) := by
  unfold readArrayD
  rw [readIntI_wIntN hlen]
  simp only []
  rw [if_neg (by omega)]
  rw [show ((args.length : Int)).toNat = args.length from by simp]
  apply (dec_roundtrip (sizeOf args)).2.1 args (Nat.le_refl _) ht
  simp only [List.length_cons, List.length_append]
  omega

/-! ## The JSON-safe fragment is transportable -/

theorem jsonSafe_trans (n : Nat) :
    (∀ v : RValue, sizeOf v ≤ n → jsonSafe v = true → transportable v = true)
    ∧ (∀ es : List RValue, sizeOf es ≤ n → jsonSafeList es = true →
        transportableList es = true)
    ∧ (∀ fs : List (String × RValue), sizeOf fs ≤ n → jsonSafeFields fs = true →
        transportableFields fs = true) := by
  induction n with
  | zero =>
    refine ⟨fun v hv _ => ?_, fun es he _ => ?_, fun fs hf _ => ?_⟩
    · exfalso
      cases v <;> simp at hv
    · exfalso
      cases es <;> simp at he
    · exfalso
      cases fs <;> simp at hf
  | succ n ih =>
    obtain ⟨ih1, ih2, ih3⟩ := ih
    refine ⟨fun v hv hj => ?_, fun es he hj => ?_, fun fs hf hj => ?_⟩
    · cases v with
      | null => simp [jsonSafe] at hj
      | func => simp [jsonSafe] at hj
      | undef => simp [jsonSafe] at hj
      | bytes bs => simp [jsonSafe] at hj
      | bool b => simp [transportable]
      | num m => simp [transportable]
      | str s => simp [transportable]
      | arr es =>
        simp only [jsonSafe, Bool.and_eq_true] at hj
        simp only [transportable, Bool.and_eq_true]
        refine ⟨hj.1, ih2 es ?_ hj.2⟩
        simp at hv
        omega
      | obj fs =>
        simp only [jsonSafe, Bool.and_eq_true] at hj
        simp only [transportable, Bool.and_eq_true]
        refine ⟨hj.1, ih3 fs ?_ hj.2⟩
        simp at hv
        omega
    · cases es with
      | nil => simp [transportableList]
      | cons e es2 =>
        simp only [jsonSafeList, Bool.and_eq_true] at hj
        simp only [transportableList, Bool.and_eq_true]
        have h1 : sizeOf e ≤ n := by
          simp at he
          omega
        have h2 : sizeOf es2 ≤ n := by
          simp at he
          omega
        exact ⟨ih1 e h1 hj.1, ih2 es2 h2 hj.2⟩
    · cases fs with
      | nil => simp [transportableFields]
      | cons kv fs2 =>
        obtain ⟨k, v⟩ := kv
        simp only [jsonSafeFields, Bool.and_eq_true] at hj
        simp only [transportableFields, Bool.and_eq_true]
        have h1 : sizeOf v ≤ n := by
          simp at hf
          omega
        have h2 : sizeOf fs2 ≤ n := by
          simp at hf
          omega
        have hnf : isFuncV v = false := by
          cases v <;> simp_all [isFuncV, jsonSafe]
        exact ⟨⟨by simp [hnf], ih1 v h1 hj.1⟩, ih3 fs2 h2 hj.2⟩

/-- C4: corrected.  What holds: for every JSON-expressible value free of
`null` (booleans, integral numbers, strings, nested arrays and objects with
fewer than `2 ^ 31` entries), decoding the encoding returns the value
itself.  What fails in the claim: `null` cannot be encoded at all — `typeof
null === 'object'`, so the Object encoder claims it and `Object.keys(null)`
throws (see the counterexample); consequently the null-to-absent exception
of the claim is unreachable on this codec's own output (the decoder-side
normalization exists, but only frames from a foreign encoder could carry a
JSON null). -/
theorem c4_typed_value_roundtrip (v : RValue) (rest : List WireItem)
    (h : jsonSafe v = true) :
    writeTypedValue v = .ok (encTV v)
    ∧ readTypedValue (encTV v ++ rest) = .ok (v, rest) := by
  have ht := (jsonSafe_trans (sizeOf v)).1 v (Nat.le_refl _) h
  exact ⟨writeTypedValue_ok v ht, readTypedValue_enc v ht rest⟩

/-- C4 witness: the scenario S4 record, with the hypothesis discharged
concretely. -/
theorem c4_typed_value_roundtrip_witness :
    jsonSafe (.obj [("k", .str "v")]) = true
    ∧ (writeTypedValue (.obj [("k", .str "v")]) = .ok (encTV (.obj [("k", .str "v")]))
      ∧ readTypedValue (encTV (.obj [("k", .str "v")]) ++ [])
          = .ok (.obj [("k", .str "v")], [])) :=
  ⟨by simp [jsonSafe, jsonSafeFields], c4_typed_value_roundtrip _ []
    (by simp [jsonSafe, jsonSafeFields])⟩

/-- C4 counterexample: the claim quantifies over every JSON-expressible
value including `null`, but encoding `null` does not produce bytes at all:
the Object encoder claims it and `Object.keys(null)` throws a TypeError. -/
theorem c4_null_unencodable :
    writeTypedValue RValue.null = .error "TypeError: Object.keys called on null" := by
  simp [writeTypedValue]

theorem parseMessage_tag1 (r : List WireItem) :
    parseMessage (wByteN 1 :: r) = parseRequestD r := rfl

theorem parseMessage_tag2 (r : List WireItem) :
    parseMessage (wByteN 2 :: r) = parseNotificationD r := rfl

theorem parseMessage_tag3 (r : List WireItem) :
    parseMessage (wByteN 3 :: r) = parseReplyD r := rfl

theorem parseMessage_tag4 (r : List WireItem) :
    parseMessage (wByteN 4 :: r) = parseReplyErrD r := rfl

theorem parseMessage_tag5 (r : List WireItem) :
    parseMessage (wByteN 5 :: r) = parseCancelD r := rfl

/-- C3: corrected.  What holds: for every message whose call id lies in
`[0, 2 ^ 31)`, whose payload values are transportable, and whose ReplyError
payload does not carry the `$isError` marker, parsing the committed frame
returns the message itself.  What fails in the claim: a ReplyError payload
carrying the marker is replaced by a fresh empty `Error` on parse (the
self-assignment bug, see the counterexample), a call id of `2 ^ 31` or more
comes back negative (signed `getInt32` read), `null` or function payload
values do not survive, and byte-array payloads are garbled — the ByteArray
encoder hands the `ArrayBuffer` to `writeBytes`, whose `Uint8Array.set`
copies zero bytes of it, so the frame carries the right length but zero
content (also in the counterexample) and the decoder returns a `Uint8Array`
rather than the sent `ArrayBuffer`. -/
theorem c3_frame_roundtrip (m : RPCMessage) (rest : List WireItem)
    (h : wfMessage m = true) :
    encodeMessage m = .ok (encMsg m)
    ∧ parseMessage (encMsg m ++ rest) = .ok (m, rest) := by
  cases m with
  | cancel id =>
    simp only [wfMessage, Bool.and_eq_true, decide_eq_true_eq] at h
    obtain ⟨h0, h1⟩ := h
    refine ⟨rfl, ?_⟩
    simp only [encMsg, List.cons_append, List.nil_append]
    rw [parseMessage_tag5, parseCancelD, readIntI_wInt h0 h1]
  | request id method args =>
    simp only [wfMessage, Bool.and_eq_true, decide_eq_true_eq] at h
    obtain ⟨⟨⟨h0, h1⟩, h2⟩, h3⟩ := h
    constructor
    · show encRequest id method args = _
      unfold encRequest writeArrayW
      rw [writeValues_ok args h3]
      simp only [encMsg]
    · simp only [encMsg, List.cons_append]
      rw [parseMessage_tag1, parseRequestD]
      split
      next callId r1 heq =>
        rw [readIntI_wInt h0 h1] at heq
        injection heq with heq1
        injection heq1 with ha hb
        subst ha
        subst hb
        split
        next method2 r2 heq2 =>
          rw [show readStrI (WireItem.str method
                :: (wIntN args.length :: (encTVList args ++ rest)))
              = Except.ok (method, wIntN args.length :: (encTVList args ++ rest))
            from rfl] at heq2
          injection heq2 with heq3
          injection heq3 with hc hd
          subst hc
          subst hd
          split
          next args2 r3 heq4 =>
            rw [readArrayD_enc args rest h3 h2] at heq4
            injection heq4 with heq5
            injection heq5 with he hf
            subst he
            subst hf
            rw [nullToUndef_id args h3]
          next e heq4 =>
            rw [readArrayD_enc args rest h3 h2] at heq4
            cases heq4
        next e heq2 =>
          rw [show readStrI (WireItem.str method
                :: (wIntN args.length :: (encTVList args ++ rest)))
              = Except.ok (method, wIntN args.length :: (encTVList args ++ rest))
            from rfl] at heq2
          cases heq2
      next e heq =>
        rw [readIntI_wInt h0 h1] at heq
        cases heq
  | notification id method args =>
    simp only [wfMessage, Bool.and_eq_true, decide_eq_true_eq] at h
    obtain ⟨⟨⟨h0, h1⟩, h2⟩, h3⟩ := h
    constructor
    · show encNotification id method args = _
      unfold encNotification writeArrayW
      rw [writeValues_ok args h3]
      simp only [encMsg]
    · simp only [encMsg, List.cons_append]
      rw [parseMessage_tag2, parseNotificationD]
      split
      next callId r1 heq =>
        rw [readIntI_wInt h0 h1] at heq
        injection heq with heq1
        injection heq1 with ha hb
        subst ha
        subst hb
        split
        next method2 r2 heq2 =>
          rw [show readStrI (WireItem.str method
                :: (wIntN args.length :: (encTVList args ++ rest)))
              = Except.ok (method, wIntN args.length :: (encTVList args ++ rest))
            from rfl] at heq2
          injection heq2 with heq3
          injection heq3 with hc hd
          subst hc
          subst hd
          split
          next args2 r3 heq4 =>
            rw [readArrayD_enc args rest h3 h2] at heq4
            injection heq4 with heq5
            injection heq5 with he hf
            subst he
            subst hf
            rw [nullToUndef_id args h3]
          next e heq4 =>
            rw [readArrayD_enc args rest h3 h2] at heq4
            cases heq4
        next e heq2 =>
          rw [show readStrI (WireItem.str method
                :: (wIntN args.length :: (encTVList args ++ rest)))
              = Except.ok (method, wIntN args.length :: (encTVList args ++ rest))
            from rfl] at heq2
          cases heq2
      next e heq =>
        rw [readIntI_wInt h0 h1] at heq
        cases heq
  | reply id res =>
    simp only [wfMessage, Bool.and_eq_true, decide_eq_true_eq] at h
    obtain ⟨⟨h0, h1⟩, h2⟩ := h
    constructor
    · show encReplyOK id res = _
      unfold encReplyOK
      rw [writeTypedValue_ok res h2]
      simp only [encMsg]
    · simp only [encMsg, List.cons_append]
      rw [parseMessage_tag3, parseReplyD]
      split
      next callId r1 heq =>
        rw [readIntI_wInt h0 h1] at heq
        injection heq with heq1
        injection heq1 with ha hb
        subst ha
        subst hb
        split
        next v r2 heq2 =>
          rw [readTypedValue_enc res h2 rest] at heq2
          injection heq2 with heq3
          injection heq3 with hc hd
          subst hc
          subst hd
          rfl
        next e heq2 =>
          rw [readTypedValue_enc res h2 rest] at heq2
          cases heq2
      next e heq =>
        rw [readIntI_wInt h0 h1] at heq
        cases heq
  | replyErr id err =>
    simp only [wfMessage, Bool.and_eq_true, Bool.not_eq_true', decide_eq_true_eq] at h
    obtain ⟨⟨⟨h0, h1⟩, h2⟩, h3⟩ := h
    rw [hasErrorMarker] at h3
    constructor
    · show encReplyErr id err = _
      unfold encReplyErr
      rw [writeTypedValue_ok err h2]
      simp only [encMsg]
    · simp only [encMsg, List.cons_append]
      rw [parseMessage_tag4, parseReplyErrD]
      split
      next callId r1 heq =>
        rw [readIntI_wInt h0 h1] at heq
        injection heq with heq1
        injection heq1 with ha hb
        subst ha
        subst hb
        split
        next v r2 heq2 =>
          rw [readTypedValue_enc err h2 rest] at heq2
          injection heq2 with heq3
          injection heq3 with hc hd
          subst hc
          subst hd
          rw [h3]
          rfl
        next e heq2 =>
          rw [readTypedValue_enc err h2 rest] at heq2
          cases heq2
      next e heq =>
        rw [readIntI_wInt h0 h1] at heq
        cases heq

/-- C3 witness: a concrete Request round-trips through the frame codec. -/
theorem c3_frame_roundtrip_witness :
    wfMessage (.request 7 "add" [.str "x"]) = true
    ∧ (encodeMessage (.request 7 "add" [.str "x"])
          = .ok (encMsg (.request 7 "add" [.str "x"]))
      ∧ parseMessage (encMsg (.request 7 "add" [.str "x"]) ++ [])
          = .ok (.request 7 "add" [.str "x"], [])) := by
  have hyp : wfMessage (.request 7 "add" [.str "x"]) = true := by
    simp [wfMessage, transportableList, transportable]
  exact ⟨hyp, c3_frame_roundtrip _ [] hyp⟩

/-- C3 counterexample: a ReplyError whose payload carries the `$isError`
marker encodes without error, yet parsing the frame yields a fresh empty
Error object instead of a value structurally equal to the payload; and a
Reply whose payload is the one-byte array `[7]` goes on the wire with the
right length but zero content (the ByteArray encoder's `Uint8Array.set` on
an `ArrayBuffer` copies nothing), so it parses back as `[0]`, not `[7]`. -/
theorem c3_replyerr_counterexample :
    encodeMessage
        (.replyErr 1 (.obj [("$isError", .bool true), ("name", .str "MyError")]))
      = .ok (encMsg (.replyErr 1 (.obj [("$isError", .bool true), ("name", .str "MyError")])))
    ∧ parseMessage
        (encMsg (.replyErr 1 (.obj [("$isError", .bool true), ("name", .str "MyError")])))
      = .ok (.replyErr 1 newErrorV, [])
    ∧ newErrorV ≠ .obj [("$isError", .bool true), ("name", .str "MyError")]
    ∧ encodeMessage (.reply 2 (.bytes [7]))
        = .ok [wByteN 3, wInt 2, wIntN 1, WireItem.blob [0]]
    ∧ parseMessage [wByteN 3, wInt 2, wIntN 1, WireItem.blob [0]]
        = .ok (.reply 2 (.bytes [0]), [])
    ∧ RValue.bytes [0] ≠ RValue.bytes [7] := by
  have htrans : transportable
      (.obj [("$isError", .bool true), ("name", .str "MyError")]) = true := by
    simp [transportable, transportableFields, transportableList, isFuncV]
  refine ⟨?_, ?_, by simp [newErrorV], ?_, rfl, by simp⟩
  · show encReplyErr 1 (.obj [("$isError", .bool true), ("name", .str "MyError")]) = _
    unfold encReplyErr
    rw [writeTypedValue_ok _ htrans]
    simp only [encMsg]
  · simp only [encMsg]
    rw [parseMessage_tag4, parseReplyErrD]
    split
    next callId r1 heq =>
      rw [readIntI_wInt (by norm_num) (by norm_num)] at heq
      injection heq with heq1
      injection heq1 with ha hb
      subst ha
      subst hb
      split
      next v r2 heq2 =>
        rw [show encTV (RValue.obj [("$isError", .bool true), ("name", .str "MyError")])
            = encTV (RValue.obj [("$isError", .bool true), ("name", .str "MyError")]) ++ []
          from (List.append_nil _).symm] at heq2
        rw [readTypedValue_enc _ htrans []] at heq2
        injection heq2 with heq3
        injection heq3 with hc hd
        subst hc
        subst hd
        rw [if_pos (by decide)]
      next e heq2 =>
        rw [show encTV (RValue.obj [("$isError", .bool true), ("name", .str "MyError")])
            = encTV (RValue.obj [("$isError", .bool true), ("name", .str "MyError")]) ++ []
          from (List.append_nil _).symm] at heq2
        rw [readTypedValue_enc _ htrans []] at heq2
        cases heq2
    next e heq =>
      rw [readIntI_wInt (by norm_num) (by norm_num)] at heq
      cases heq

  · show encReplyOK 2 (.bytes [7]) = _
    unfold encReplyOK
    rw [show writeTypedValue (.bytes [7]) = Except.ok [wIntN 1, WireItem.blob [0]]
      from by simp [writeTypedValue]]

/-- C6: code bug.  The claim restates the spec: a marker-carrying payload is
rehydrated as a structured error whose `name`, `message` and `stack` equal
those of the decoded payload.  The code does not do this: `parseReplyErr`
overwrites `err` with `new Error()` BEFORE copying the fields, so
`err.name = err.name`, `err.message = err.message`, `err.stack = err.stack`
are self-assignments and every decoded field is lost.  Concretely, the
payload below decodes to a fresh Error whose `name` is "Error" (not
"MyError") and whose `message` is empty (not "boom"). -/
theorem c6_replyerr_fields_lost :
    parseReplyErrD (wInt 1 :: encTV (.obj [("$isError", .bool true),
        ("name", .str "MyError"), ("message", .str "boom"), ("stack", .str "trace")]))
      = .ok (.replyErr 1 newErrorV, [])
    ∧ getProp newErrorV "name" = .str "Error"
    ∧ getProp (.obj [("$isError", .bool true), ("name", .str "MyError"),
        ("message", .str "boom"), ("stack", .str "trace")]) "name" = .str "MyError"
    ∧ getProp newErrorV "message" = .str ""
    ∧ getProp (.obj [("$isError", .bool true), ("name", .str "MyError"),
        ("message", .str "boom"), ("stack", .str "trace")]) "message" = .str "boom" := by
  have htrans : transportable (.obj [("$isError", .bool true),
      ("name", .str "MyError"), ("message", .str "boom"), ("stack", .str "trace")])
      = true := by
    simp [transportable, transportableFields, transportableList, isFuncV]
  refine ⟨?_, rfl, rfl, rfl, rfl⟩
  rw [parseReplyErrD]
  split
  next callId r1 heq =>
    rw [readIntI_wInt (by norm_num) (by norm_num)] at heq
    injection heq with heq1
    injection heq1 with ha hb
    subst ha
    subst hb
    split
    next v r2 heq2 =>
      rw [show encTV (RValue.obj [("$isError", .bool true), ("name", .str "MyError"),
            ("message", .str "boom"), ("stack", .str "trace")])
          = encTV (RValue.obj [("$isError", .bool true), ("name", .str "MyError"),
            ("message", .str "boom"), ("stack", .str "trace")]) ++ []
        from (List.append_nil _).symm] at heq2
      rw [readTypedValue_enc _ htrans []] at heq2
      injection heq2 with heq3
      injection heq3 with hc hd
      subst hc
      subst hd
      rw [if_pos (by decide)]
    next e heq2 =>
      rw [show encTV (RValue.obj [("$isError", .bool true), ("name", .str "MyError"),
            ("message", .str "boom"), ("stack", .str "trace")])
          = encTV (RValue.obj [("$isError", .bool true), ("name", .str "MyError"),
            ("message", .str "boom"), ("stack", .str "trace")]) ++ []
        from (List.append_nil _).symm] at heq2
      rw [readTypedValue_enc _ htrans []] at heq2
      cases heq2
  next e heq =>
    rw [readIntI_wInt (by norm_num) (by norm_num)] at heq
    cases heq
